import Mathlib

/-!
hCraft: server registry, player list, world tables, time strings, word wrapping

A shallow embedding of parts of the hCraft server (`src/server.cpp`,
`src/playerlist.cpp`, `src/util/utils.cpp`, `src/wordwrap.cpp`,
`include/world/world.hpp`, `include/world/generation/generator.hpp`) together
with theorems about them.

Conventions of the embedding:

* a C++ `int` is an `Int` kept in the range of a 32-bit two's-complement
  integer by `wrap_int32`;
* a pointer to an object is the value of the object paired with its address
  (`addr`), so that pointer equality is equality of these values;
* a `std::unordered_map<cistring, T *>` is an association list whose keys are
  compared ignoring letter case; the order of the list stands for the
  (unspecified) iteration order of the table;
* a member function that changes the object returns the new object, paired
  with its result when it has one; mutexes are not modelled, every member
  function runs as one atomic step.
-/

namespace hCraft

/-! ## Machine integers -/

/-- The value a 32-bit two's-complement `int` holds after an arithmetic result
`x` has been stored in it. -/
def wrap_int32 (x : Int) : Int :=
  (x + 2147483648) % 4294967296 - 2147483648

/-! ## Case-insensitive strings and tables keyed by them -/

/-- Modelled from the spec: the key type `cistring` of the world table and of
the player table (its header `cistring.hpp` is not among the sources). A
`cistring` keeps the characters it was built from, and two of them compare
equal when they agree after every ASCII capital letter has been replaced by
its small letter. `fold` is that replacement. -/
def cistring.fold (s : String) : String :=
  ⟨s.data.map Char.toLower⟩

/-- Modelled from the spec: equality of two `cistring` keys (header
`cistring.hpp`, not among the sources), which is equality ignoring letter
case. -/
def cistring.equals (a b : String) : Bool :=
  cistring.fold a == cistring.fold b

/-- The entry `std::unordered_map<cistring, T *>::find (name)` points at, if
there is one. -/
def ci_map.find {V : Type} (m : List (String × V)) (name : String) :
    Option (String × V) :=
  m.find? (fun e => cistring.equals e.1 name)

/-- The table after `erase (itr)` for the iterator `itr = find (name)`
(unchanged when `find` gave `end ()`). -/
def ci_map.erase {V : Type} (m : List (String × V)) (name : String) :
    List (String × V) :=
  m.eraseP (fun e => cistring.equals e.1 name)

/-- The table after `m[key] = v`: `operator[]` finds the entry whose key
equals `key` (ignoring case), or inserts a new entry under `key`, and the
value of that entry is overwritten. An entry that was already there keeps the
key it was inserted under. -/
def ci_map.assign {V : Type} : List (String × V) → String → V → List (String × V)
  | [], key, v => [(key, v)]
  | e :: es, key, v =>
    if cistring.equals e.1 key then (e.1, v) :: es
    else e :: ci_map.assign es key v

/-- The keys of a table are pairwise different (ignoring case): the invariant
every `std::unordered_map` keeps. -/
def ci_map.unique_keys {V : Type} (m : List (String × V)) : Prop :=
  m.Pairwise (fun a b => cistring.equals a.1 b.1 = false)

instance ci_map.unique_keys_decidable {V : Type} (m : List (String × V)) :
    Decidable (ci_map.unique_keys m) := by
  unfold ci_map.unique_keys
  infer_instance

/-! ## Worlds and players, as far as the registries look at them -/

/-- A `world *`: the address of the world object and the name
`world::get_name ()` returns for it. -/
structure world where
  addr : Nat
  name : String
  deriving DecidableEq, Repr

/-- A `player *`: the address of the player object and the name
`player::get_username ()` returns for it. -/
structure player where
  addr : Nat
  username : String
  deriving DecidableEq, Repr

/-! ## playerlist (src/playerlist.cpp) -/

/-- The three ways `playerlist::find` can compare names. -/
inductive player_find_method where
  | case_sensitive
  | case_insensitive
  | name_completion
  deriving DecidableEq, Repr

/-- The data of class `playerlist`: the table `players`. -/
structure playerlist where
  players : List (String × player)
  deriving DecidableEq, Repr

/-- Constructor `playerlist::playerlist ()`: the empty list. -/
def playerlist.empty : playerlist := ⟨[]⟩

/-- Function `playerlist::count`: the size of the table (a list never holds
so many players that the size would not fit the `int` it is returned in). -/
def playerlist.count (l : playerlist) : Int :=
  l.players.length

/-- Function `playerlist::find`. -/
def playerlist.find (l : playerlist) (name : String) (method : player_find_method) :
    Option player :=
  match method with
  | .case_sensitive =>
    match ci_map.find l.players name with
    | some itr => if itr.1 = name then some itr.2 else none
    | none => none
  | .case_insensitive =>
    match ci_map.find l.players name with
    | some itr => some itr.2
    | none => none
  | .name_completion => none

/-- Function `playerlist::add`: the result and the list afterwards. -/
def playerlist.add (l : playerlist) (pl : player) : Bool × playerlist :=
  let username := pl.username
  match l.find username .case_insensitive with
  | some _ => (false, l)
  | none => (true, { l with players := ci_map.assign l.players username pl })

/-- Every player of the list is stored under the user name it has: what
holds of a list whose players all came in through `playerlist::add`. -/
def playerlist.keyed (l : playerlist) : Prop :=
  ∀ e ∈ l.players, e.1 = e.2.username

instance playerlist.keyed_decidable (l : playerlist) : Decidable l.keyed := by
  unfold playerlist.keyed
  infer_instance

/-! ## server (src/server.cpp) -/

/-- What a callback can throw: `server_error`, another exception class
derived from `std::exception` (the parser of the configuration file and
`new` throw such), or `foreign`, a thrown value of any other type.
`server_error` is declared in `server.hpp`, which is not among the sources;
it is taken to derive from `std::exception`, as the handler in `start` is
there for what the init functions throw, and they throw `server_error`. -/
inductive exception where
  | server_error (what : String)
  | std_exception (what : String)
  | foreign
  deriving DecidableEq, Repr

/-- Whether `catch (const std::exception& ex)` catches the exception. -/
def exception.is_std : exception → Bool
  | .server_error _ => true
  | .std_exception _ => true
  | .foreign => false

/-- The data members of class `server` that the member functions below read
or write, apart from `inits` and `running`. -/
structure server_data where
  worlds : List (String × world)
  id_counter : Int
  players : playerlist
  connecting : List player
  max_players : Int

/-- The server data of a server that holds no world and no player, with the
default limit of 12 players (`default_config`). -/
def server_data.initial : server_data :=
  { worlds := [], id_counter := 0, players := playerlist.empty, connecting := [],
    max_players := 12 }

/-- Function `server::add_world`: the result and the server afterwards. -/
def server_data.add_world (s : server_data) (w : world) : Bool × server_data :=
  let name := w.name
  match ci_map.find s.worlds name with
  | some _ => (false, s)
  | none => (true, { s with worlds := ci_map.assign s.worlds name w })

/-- Function `server::remove_world (world *w)`: the first entry of the table whose
value is `w` is erased. -/
def server_data.remove_world (s : server_data) (w : world) : server_data :=
  { s with worlds := s.worlds.eraseP (fun e => e.2 = w) }

/-- Function `server::remove_world (const char *name)`. -/
def server_data.remove_world_name (s : server_data) (name : String) : server_data :=
  { s with worlds := ci_map.erase s.worlds name }

/-- Function `server::find_world`. -/
def server_data.find_world (s : server_data) (name : String) : Option world :=
  match ci_map.find s.worlds name with
  | some itr => some itr.2
  | none => none

/-- Function `server::next_entity_id`: the id returned and the server afterwards. The
increment of the `int` counter wraps, which is what the test for a negative
counter after it reckons with. -/
def server_data.next_entity_id (s : server_data) : Int × server_data :=
  let id := s.id_counter
  let counter := wrap_int32 (s.id_counter + 1)
  (id, { s with id_counter := if counter < 0 then 0 else counter })

/-- Function `server::init_core`, as far as the modelled members go: a new empty
player list and the id counter reset (the scheduler and the thread pool are
not modelled). -/
def server_data.init_core (s : server_data) : server_data :=
  { s with players := playerlist.empty, id_counter := 0 }

/-- Function `server::destroy_core`, as far as the modelled members go: the list of
connecting players and the player list are emptied. -/
def server_data.destroy_core (s : server_data) : server_data :=
  { s with connecting := [], players := playerlist.empty }

/-- Function `server::destroy_worlds`, as far as the world table goes. -/
def server_data.destroy_worlds (s : server_data) : server_data :=
  { s with worlds := [] }

/-- The server after `k` calls of `next_entity_id`. -/
def server_data.after_calls : Nat → server_data → server_data
  | 0, s => s
  | k + 1, s => server_data.after_calls k s.next_entity_id.2

/-- The id the call number `k` (counted from 0) of `next_entity_id` returns,
when the calls are made one after the other on `s`. -/
def server_data.nth_entity_id (k : Nat) (s : server_data) : Int :=
  (s.after_calls k).next_entity_id.1

/-- One operation on the world table of a server. -/
inductive registry_op where
  | add (w : world)
  | remove (w : world)
  | remove_name (name : String)
  | clear
  deriving DecidableEq, Repr

/-- The server after one operation on its world table. -/
def registry_op.apply (s : server_data) : registry_op → server_data
  | .add w => (s.add_world w).2
  | .remove w => s.remove_world w
  | .remove_name name => s.remove_world_name name
  | .clear => s.destroy_worlds

/-- The server after a sequence of operations on its world table. -/
def server_data.run_registry (s : server_data) (ops : List registry_op) : server_data :=
  ops.foldl registry_op.apply s

/-- What holds of the world table of a server whose worlds all came in
through `add_world`: no two keys are equal (ignoring case) and every world is
stored under its own name. -/
def registry_inv (ws : List (String × world)) : Prop :=
  ci_map.unique_keys ws ∧ ∀ e ∈ ws, e.1 = e.2.name

instance registry_inv_decidable (ws : List (String × world)) : Decidable (registry_inv ws) := by
  unfold registry_inv
  infer_instance

/-- An `<init, destroy>` pair of the server (`server::initializer`). `tag`
names the pair in the record of calls; `init` gives the server data after it
ran and what it threw, if it threw; `destroy` does not throw (none of the
six destroy functions of the server has a throw statement). -/
structure initializer where
  tag : String
  init : server_data → server_data × Option exception
  destroy : server_data → server_data
  initialized : Bool

/-- A call of one of the two functions of an initializer. -/
inductive call where
  | init (tag : String)
  | destroy (tag : String)
  deriving DecidableEq, Repr

/-- Class `server`: the initializers in registration order, the `running`
flag, the other data members, and a record of the calls made to the
functions of the initializers, oldest first (`calls` is not a member of the
class: it is there to state which functions ran). -/
structure server where
  inits : List initializer
  running : Bool
  data : server_data
  calls : List call

/-- Constructor `server::server`: the given pairs are registered in order, none
initialized, and the server does not run. -/
def server.create (pairs : List (String × (server_data → server_data × Option exception) ×
    (server_data → server_data))) (data : server_data) : server :=
  { inits := pairs.map (fun p => ⟨p.1, p.2.1, p.2.2, false⟩)
    running := false
    data := data
    calls := [] }

/-- The server as `server::server` builds it, with its six `<init, destroy>`
pairs in the order of the constructor. Of the six init functions,
`init_core` resets the id counter and the player list and `init_worlds` adds
the main world; `listener` is what `init_listener` throws, if it throws (it
throws `server_error` when the listening socket cannot be created); the
other effects of the functions are outside the modelled data. -/
def server.with_listener (listener : Option exception) : server :=
  server.create
    [("config", fun d => (d, none), fun d => d),
     ("core", fun d => (d.init_core, none), server_data.destroy_core),
     ("commands", fun d => (d, none), fun d => d),
     ("worlds", fun d => ((d.add_world ⟨1, "main"⟩).2, none), server_data.destroy_worlds),
     ("workers", fun d => (d, none), fun d => d),
     ("listener", fun d => (d, listener), fun d => d)]
    server_data.initial

/-- The loop of the `try` block of `server::start` over the initializers
that are left: the initializers afterwards, the server data, the calls made,
and the exception that ended the loop, if one did. -/
def server.init_loop : List initializer → server_data →
    List initializer × server_data × List call × Option exception
  | [], d => ([], d, [], none)
  | i :: rest, d =>
    match i.init d with
    | (d1, some ex) => (i :: rest, d1, [call.init i.tag], some ex)
    | (d1, none) =>
      let r := server.init_loop rest d1
      ({ i with initialized := true } :: r.1, r.2.1, call.init i.tag :: r.2.2.1, r.2.2.2)

/-- The loop of the `catch` block of `server::start`, over the initializers
in the order it visits them: every initialized one is destroyed and marked
as not initialized. -/
def server.rollback_loop : List initializer → server_data →
    List initializer × server_data × List call
  | [], d => ([], d, [])
  | i :: rest, d =>
    if i.initialized then
      let r := server.rollback_loop rest (i.destroy d)
      ({ i with initialized := false } :: r.1, r.2.1, call.destroy i.tag :: r.2.2)
    else
      let r := server.rollback_loop rest d
      (i :: r.1, r.2.1, r.2.2)

/-- The loop of `server::stop`, over the initializers in the order it visits
them: every one is destroyed and marked as not initialized. -/
def server.destroy_loop : List initializer → server_data →
    List initializer × server_data × List call
  | [], d => ([], d, [])
  | i :: rest, d =>
    let r := server.destroy_loop rest (i.destroy d)
    ({ i with initialized := false } :: r.1, r.2.1, call.destroy i.tag :: r.2.2)

/-- Function `server::start`: the server afterwards and the exception the call ends
with, if it ends with one. -/
def server.start (s : server) : server × Option exception :=
  if s.running then
    (s, some (exception.server_error "server already running"))
  else
    match server.init_loop s.inits s.data with
    | (inits1, d1, calls1, none) =>
      ({ inits := inits1, running := true, data := d1, calls := s.calls ++ calls1 }, none)
    | (inits1, d1, calls1, some ex) =>
      if ex.is_std then
        let r := server.rollback_loop inits1.reverse d1
        ({ inits := r.1.reverse, running := true, data := r.2.1,
           calls := s.calls ++ calls1 ++ r.2.2 }, none)
      else
        ({ inits := inits1, running := s.running, data := d1, calls := s.calls ++ calls1 },
          some ex)

/-- Function `server::stop`. -/
def server.stop (s : server) : server :=
  if !s.running then s
  else
    let r := server.destroy_loop s.inits.reverse s.data
    { inits := r.1.reverse, running := false, data := r.2.1, calls := s.calls ++ r.2.2 }

/-- Destructor `server::~server`: calls `stop ()`. -/
def server.destructor (s : server) : server :=
  s.stop

/-! ## The chunk table of a world (include/world/world.hpp) -/

/-- A `chunk *`: the address of the block grid. -/
structure chunk where
  addr : Nat
  deriving DecidableEq, Repr

/-- The member `last_chunk` of class `world`: the coordinates and the chunk
of the last lookup, `ch` being null when the slot is empty. -/
structure last_chunk_slot where
  x : Int
  z : Int
  ch : Option chunk
  deriving DecidableEq, Repr

/-- The members `chunks` and `last_chunk` of class `world`. The table
`std::unordered_map<unsigned long long, chunk *>` is a list of pairs with at
most one pair for a key. -/
structure world_chunks where
  chunks : List (Nat × chunk)
  last_chunk : last_chunk_slot
  deriving DecidableEq, Repr

/-- Modelled from the spec: the packed 64-bit key of a chunk coordinate (the
function is in `world.cpp`, which is not among the sources): `z` as an
unsigned 32-bit number in the upper half, `x` in the lower half. -/
def chunk_key (x z : Int) : Nat :=
  (z % 4294967296).toNat * 4294967296 + (x % 4294967296).toNat

/-- Modelled from the spec: `world::put_chunk` (its body is in `world.cpp`,
which is not among the sources). The entry for the coordinate is replaced by,
or created with, the given grid, and the `last_chunk` slot is emptied. -/
def world_chunks.put_chunk (t : world_chunks) (x z : Int) (ch : chunk) : world_chunks :=
  { chunks := (chunk_key x z, ch) :: t.chunks.filter (fun e => e.1 != chunk_key x z)
    last_chunk := { t.last_chunk with ch := none } }

/-- Modelled from the spec: `world::get_chunk` (its body is in `world.cpp`,
which is not among the sources). A lookup of the coordinate held in the
`last_chunk` slot is answered from the slot; any other lookup goes to the
table and, when it finds a grid, leaves it in the slot. The result is the
grid, or null, and the world afterwards. -/
def world_chunks.get_chunk (t : world_chunks) (x z : Int) : Option chunk × world_chunks :=
  if t.last_chunk.ch.isSome && t.last_chunk.x == x && t.last_chunk.z == z then
    (t.last_chunk.ch, t)
  else
    match t.chunks.find? (fun e => e.1 == chunk_key x z) with
    | some e => (some e.2, { t with last_chunk := ⟨x, z, some e.2⟩ })
    | none => (none, t)

/-- Modelled from the spec: `world::remove_chunk` (its body is in
`world.cpp`, which is not among the sources). The entry for the coordinate
is taken out of the table and the `last_chunk` slot is emptied; `save` says
whether the grid is handed to the provider first, which the table does not
see. -/
def world_chunks.remove_chunk (t : world_chunks) (x z : Int) (_save : Bool) : world_chunks :=
  { chunks := t.chunks.filter (fun e => e.1 != chunk_key x z)
    last_chunk := { t.last_chunk with ch := none } }

/-! ## The update queue of a world (include/world/world.hpp) -/

/-- Structure `block_update`. -/
structure block_update where
  x : Int
  y : Int
  z : Int
  id : Nat
  meta : Nat
  extra : Int
  pl : Option player
  physics : Bool
  data : Int
  ptr : Nat
  deriving DecidableEq, Repr

/-- The member `updates` of class `world`. -/
structure update_queue where
  updates : List block_update
  deriving DecidableEq, Repr

/-- Modelled from the spec: `world::queue_update` (its body is in
`world.cpp`, which is not among the sources): under the update lock the
record built from the arguments is appended to `updates`. -/
def update_queue.queue_update (q : update_queue) (u : block_update) : update_queue :=
  { updates := q.updates ++ [u] }

/-- Modelled from the spec: the flush of the tick thread (part of the
worker function in `world.cpp`, which is not among the sources): under the
update lock the queue is swapped for an empty one, and the records it held
are the result. -/
def update_queue.flush (q : update_queue) : List block_update × update_queue :=
  (q.updates, { updates := [] })

/-- One step taken on the update queue: some thread enqueues a record, or
the tick thread flushes. Either is one critical section, so an execution of
the threads is a sequence of these steps. -/
inductive queue_step where
  | enqueue (u : block_update)
  | flush
  deriving DecidableEq, Repr

/-- The results of the flushes of a sequence of steps, in order, and the
queue after the last step. -/
def update_queue.run : update_queue → List queue_step → List (List block_update) × update_queue
  | q, [] => ([], q)
  | q, queue_step.enqueue u :: rest => update_queue.run (q.queue_update u) rest
  | q, queue_step.flush :: rest =>
    let r := update_queue.run q.flush.2 rest
    (q.flush.1 :: r.1, r.2)

/-- The records a sequence of steps enqueues, in the order of the steps. -/
def queue_step.enqueued : List queue_step → List block_update
  | [] => []
  | queue_step.enqueue u :: rest => u :: queue_step.enqueued rest
  | queue_step.flush :: rest => queue_step.enqueued rest

/-! ## The chunk generator (include/world/generation/generator.hpp) -/

/-- Flag `GFL_NONE`. -/
def GFL_NONE : Nat := 0

/-- Flag `GFL_ABORTED`: generation aborted due to some reason. -/
def GFL_ABORTED : Nat := 1 <<< 0

/-- Flag `GFL_NODELIVER`: makes the generator drop the chunk once it is
generated. -/
def GFL_NODELIVER : Nat := 1 <<< 1

/-- Flag `GFL_NOABORT`: with this flag on, the generator makes no attempt to
cancel the generation of the chunk. -/
def GFL_NOABORT : Nat := 1 <<< 2

/-- The test `flags & f` of a flag word against a flag. -/
def gen_flags.test (flags f : Nat) : Bool :=
  flags &&& f != 0

/-- The flag word `flags | f`. -/
def gen_flags.set (flags f : Nat) : Nat :=
  flags ||| f

/-- Structure `gen_request`. The field `id` is not a member of the struct: it
is the number of the request, given out by `request` in the order of the
calls, and is there to tell which request a response answers. -/
structure gen_request where
  pid : Int
  w : world
  cx : Int
  cz : Int
  flags : Nat
  extra : Int
  id : Nat
  deriving DecidableEq, Repr

/-- Structure `gen_response`; `ch` is null when no chunk comes with it. The
field `id` is not a member of the struct: it is the number of the request
the response answers. -/
structure gen_response where
  w : world
  cx : Int
  cz : Int
  ch : Option chunk
  flags : Nat
  extra : Int
  id : Nat
  deriving DecidableEq, Repr

/-- Structure `generator_queue`: the requests of one requester, oldest first
(the header does not say what `counter` counts; it is carried along). -/
structure generator_queue where
  pid : Int
  requests : List gen_request
  counter : Nat
  deriving DecidableEq, Repr

/-- Class `chunk_generator`: the queues, in the order in which the worker
will visit them next, and the responses the worker has handed over so far,
oldest first (the inboxes of all worlds in one list; a response names its
world). The member `index_map`, which finds the queue of a requester, is
not modelled: the queues are searched by `pid`. `next_id` is not a member of
the class: it is the number the next request gets. -/
structure chunk_generator where
  queues : List generator_queue
  delivered : List gen_response
  next_id : Nat
  deriving DecidableEq, Repr

/-- The terrain generator the worker calls: the grid of a chunk of a world,
or nothing when the generator fails. -/
abbrev terrain := world → Int → Int → Option chunk

/-- Modelled from the spec: the queueing step of `chunk_generator::request`
(`generator.cpp`, not among the sources): the request is put at the back of
the queue of its requester, which is created when the requester has none. -/
def generator_queue.push : List generator_queue → gen_request → List generator_queue
  | [], r => [{ pid := r.pid, requests := [r], counter := 0 }]
  | q :: qs, r =>
    if q.pid = r.pid then { q with requests := q.requests ++ [r] } :: qs
    else q :: generator_queue.push qs r

/-- Modelled from the spec: `chunk_generator::request` (its body is in
`generator.cpp`, which is not among the sources): the request is queued
behind the other requests of the same requester. -/
def chunk_generator.request (g : chunk_generator) (w : world) (cx cz : Int) (pid : Int)
    (flags : Nat) (extra : Int) : chunk_generator :=
  { g with
    queues := generator_queue.push g.queues ⟨pid, w, cx, cz, flags, extra, g.next_id⟩
    next_id := g.next_id + 1 }

/-- Modelled from the spec: what `chunk_generator::cancel_requests (w)`
(`generator.cpp`, not among the sources) does to one queued request: a
request for the world that does not carry `GFL_NOABORT` gets `GFL_ABORTED`,
any other request stays as it is. -/
def gen_request.cancel (w : world) (r : gen_request) : gen_request :=
  if r.w = w ∧ gen_flags.test r.flags GFL_NOABORT = false then
    { r with flags := gen_flags.set r.flags GFL_ABORTED }
  else r

/-- Modelled from the spec: `chunk_generator::cancel_requests` (its body is
in `generator.cpp`, which is not among the sources): every queued request
for the world that can be cancelled is flagged `GFL_ABORTED`. -/
def chunk_generator.cancel_requests (g : chunk_generator) (w : world) : chunk_generator :=
  { g with
    queues := List.map
      (fun q => { q with requests := q.requests.map (gen_request.cancel w) }) g.queues }

/-- Modelled from the spec: the response `chunk_generator::main_loop`
(`generator.cpp`, not among the sources) builds for a request it generates:
the grid with the flags of the request, or, when the generator fails, a null
grid with `GFL_ABORTED` added to the flags. -/
def chunk_generator.respond (gen : terrain) (r : gen_request) : gen_response :=
  match gen r.w r.cx r.cz with
  | some ch => ⟨r.w, r.cx, r.cz, some ch, r.flags, r.extra, r.id⟩
  | none => ⟨r.w, r.cx, r.cz, none, gen_flags.set r.flags GFL_ABORTED, r.extra, r.id⟩

/-- Modelled from the spec: what `chunk_generator::main_loop`
(`generator.cpp`, not among the sources) hands over for a request it has
taken from a queue: nothing when the request is flagged `GFL_ABORTED` and
does not carry `GFL_NOABORT` (it is skipped), nothing when it carries
`GFL_NODELIVER` (the chunk is dropped), and the response otherwise. -/
def chunk_generator.serve (gen : terrain) (r : gen_request) : Option gen_response :=
  if gen_flags.test r.flags GFL_ABORTED && !gen_flags.test r.flags GFL_NOABORT then none
  else if gen_flags.test r.flags GFL_NODELIVER then none
  else some (chunk_generator.respond gen r)

/-- Modelled from the spec: the round robin of `chunk_generator::main_loop`
(`generator.cpp`, not among the sources) over the queues: the oldest request
of the first queue that is not empty, and the queues in their new order, in
which the queues that were passed over and the queue that was served stand
behind the others. `skipped` holds the queues passed over so far. -/
def generator_queue.next_request (skipped : List generator_queue) :
    List generator_queue → Option (gen_request × List generator_queue)
  | [] => none
  | q :: qs =>
    match q.requests with
    | r :: rs => some (r, qs ++ skipped ++ [{ q with requests := rs }])
    | [] => generator_queue.next_request (skipped ++ [q]) qs

/-- Modelled from the spec: one turn of `chunk_generator::main_loop` (its
body is in `generator.cpp`, which is not among the sources): the next
request is taken round robin and served; with nothing queued the worker
waits. -/
def chunk_generator.work (gen : terrain) (g : chunk_generator) : chunk_generator :=
  match generator_queue.next_request [] g.queues with
  | none => g
  | some (r, qs) =>
    { g with
      queues := qs
      delivered := g.delivered ++ (chunk_generator.serve gen r).toList }

/-- One step on the generator: a turn of the worker, a request, or a
cancellation; each runs under the request mutex. -/
inductive gen_op where
  | work
  | request (w : world) (cx cz pid : Int) (flags : Nat) (extra : Int)
  | cancel (w : world)
  deriving DecidableEq, Repr

/-- The generator after one step. -/
def gen_op.apply (gen : terrain) (g : chunk_generator) : gen_op → chunk_generator
  | .work => g.work gen
  | .request w cx cz pid flags extra => g.request w cx cz pid flags extra
  | .cancel w => g.cancel_requests w

/-- The generator after a sequence of steps. -/
def chunk_generator.run (gen : terrain) (g : chunk_generator) (ops : List gen_op) :
    chunk_generator :=
  ops.foldl (gen_op.apply gen) g

/-- The requests queued in a list of queues. -/
def generator_queue.pending (qs : List generator_queue) : List gen_request :=
  (qs.map (fun q => q.requests)).flatten

/-- The numbering of the requests is in order: no two queued requests have
the same number, the numbers of the queued requests and of the responses are
below the number the next request gets, and no response answers a request
that is still queued. This holds of the generator without requests and is
kept by every step. -/
def chunk_generator.wf (g : chunk_generator) : Prop :=
  ((generator_queue.pending g.queues).map (fun r => r.id)).Nodup ∧
  (∀ r ∈ generator_queue.pending g.queues, r.id < g.next_id) ∧
  (∀ resp ∈ g.delivered, resp.id < g.next_id) ∧
  (∀ resp ∈ g.delivered, ∀ r ∈ generator_queue.pending g.queues, resp.id ≠ r.id)

instance chunk_generator.wf_decidable (g : chunk_generator) : Decidable g.wf := by
  unfold chunk_generator.wf
  infer_instance

/-- The generator that has not been asked for anything. -/
def chunk_generator.idle : chunk_generator :=
  { queues := [], delivered := [], next_id := 0 }

/-- The steps in which one requester asks for the chunks (5, 5) and (6, 6)
of the world "main", the second one with `GFL_NOABORT`. -/
def gen_op.two_requests : List gen_op :=
  [gen_op.request ⟨1, "main"⟩ 5 5 10 GFL_NONE 0,
   gen_op.request ⟨1, "main"⟩ 6 6 10 GFL_NOABORT 0]

/-- A terrain generator that does not fail: the grid of chunk (cx, cz) is at
address 100. -/
def terrain.flat : terrain :=
  fun _ _ _ => some ⟨100⟩

/-! ## Removing players and finishing a connection (src/playerlist.cpp, src/server.cpp) -/

/-- The loop of `playerlist::remove_if` over the entries of the table that
are left: the entries that stay, the players the predicate was called on, in
the order of the calls, and the players that were destroyed. -/
def playerlist.remove_if_loop (pred : player → Bool) (delete_players : Bool) :
    List (String × player) → List (String × player) × List player × List player
  | [] => ([], [], [])
  | e :: es =>
    let r := playerlist.remove_if_loop pred delete_players es
    if pred e.2 = true then
      (r.1, e.2 :: r.2.1, if delete_players then e.2 :: r.2.2 else r.2.2)
    else
      (e :: r.1, e.2 :: r.2.1, r.2.2)

/-- Function `playerlist::remove_if`: the list afterwards, the players the
predicate was called on, in the order of the calls, and the players that
were destroyed. -/
def playerlist.remove_if (l : playerlist) (pred : player → Bool) (delete_players : Bool) :
    playerlist × List player × List player :=
  let r := playerlist.remove_if_loop pred delete_players l.players
  ({ l with players := r.1 }, r.2.1, r.2.2)

/-- Function `server::cleanup_players`: the players for which `bad ()` holds
are removed from the player list and from the list of connecting players
(and destroyed). `bad` stands for `player::bad`, which is declared in
`player.hpp`, not among the sources. -/
def server_data.cleanup_players (bad : player → Bool) (s : server_data) : server_data :=
  { s with
    players := (s.players.remove_if (fun pl => if bad pl then true else false) true).1
    connecting := s.connecting.filter (fun pl => !bad pl) }

/-- Function `server::done_connecting`: the result, the server afterwards,
and the reason `pl` was kicked with, if it was kicked. -/
def server_data.done_connecting (s : server_data) (pl : player) :
    Bool × server_data × Option String :=
  if s.players.count = s.max_players then
    (false, { s with connecting := s.connecting.erase pl }, some "server full")
  else
    match s.players.add pl with
    | (false, l) =>
      (false, { s with players := l, connecting := s.connecting.erase pl },
        some "already logged in")
    | (true, l) => (true, { s with players := l, connecting := s.connecting.erase pl }, none)

/-! ## Time strings (src/util/utils.cpp)

A `std::string` is the list of its bytes. `std::istringstream`, `std::isdigit`
and `std::isalpha` belong to the C++ library: they are modelled as the GNU
library behaves in the "C" locale on a machine whose `char` is signed. A
`double` is kept as an exact fraction; the double arithmetic of the code is
exact, and so agrees with the model, as long as the numbers are integers
below 2^53. -/

/-- The bytes of a text of ASCII characters. -/
def ascii (s : String) : List Nat :=
  s.data.map Char.toNat

/-- The `char` a value is converted to (`char c = ss.peek ()`): the value is
taken to the range -128 .. 127, so that the byte 255 and the end-of-file
value -1 both give -1. -/
def to_char (v : Int) : Int :=
  (v + 128) % 256 - 128

/-- The library function `std::isdigit` on a `char`. -/
def isdigit (c : Int) : Bool :=
  decide (48 ≤ c) && decide (c ≤ 57)

/-- The library function `std::isalpha` on a `char`. -/
def isalpha (c : Int) : Bool :=
  (decide (65 ≤ c) && decide (c ≤ 90)) || (decide (97 ≤ c) && decide (c ≤ 122))

/-- Whether a byte is a decimal digit. -/
def is_digit_byte (b : Nat) : Bool :=
  decide (48 ≤ b) && decide (b ≤ 57)

/-- The number a run of decimal digits denotes. -/
def decimal_value (ds : List Nat) : Nat :=
  ds.foldl (fun acc b => 10 * acc + (b - 48)) 0

/-- A `double` that is not infinite, as the exact fraction `num / den`
(`den` is positive). -/
structure dbl where
  num : Int
  den : Nat
  deriving DecidableEq, Repr

/-- The sum of two doubles. -/
def dbl.add (a b : dbl) : dbl :=
  ⟨a.num * b.den + b.num * a.den, a.den * b.den⟩

/-- The product of a double and a whole number (`n *= 60.0`). -/
def dbl.scale (a : dbl) (k : Nat) : dbl :=
  ⟨a.num * k, a.den⟩

/-- The conversion `(int)s`: the fraction is cut off. (For a value outside
the range of `int` the conversion is undefined in C++; the model gives the
whole part.) -/
def dbl.to_int (a : dbl) : Int :=
  Int.tdiv a.num a.den

/-- The least number that a decimal text is converted to infinity for:
2^1024 - 2^970. -/
def dbl_overflow : Nat :=
  179769313486231580793728971405303415079934132710037826936173778980444968292764750946649017977587207096330286416692887910946555547851940402630657488671505820681908902000708383676273854845817711531764475730270069855571366959622842914819860834936475292719074168444365510704342711559699508093042880177904174497792

/-- The largest double: 2^1024 - 2^971. -/
def dbl_max : Nat :=
  179769313486231570814527423731704356798070567525844996598917476803157260780028538760589558632766878171540458953514382464234321326889464182768467546703537516986049910576551282076245490090389328944075868508455133942304583236903222948165808559332123348274797826204144723168738177180919299881250404026184124858368

/-- The state of a `std::istringstream`: the bytes not yet read and whether
`failbit` is set (from then on no input function reads anything). -/
structure istringstream where
  rest : List Nat
  fail : Bool
  deriving DecidableEq, Repr

/-- The library function `peek`: the next byte, or -1 at the end of the input
and on a stream that has failed. -/
def istringstream.peek (ss : istringstream) : Int :=
  if ss.fail then -1
  else
    match ss.rest with
    | [] => -1
    | b :: _ => b

/-- The library function `get`, used for its effect: the next byte is skipped. -/
def istringstream.get (ss : istringstream) : istringstream :=
  if ss.fail then ss else { ss with rest := ss.rest.tail }

/-- The library operator `ss >> n` for a `double`, called on a stream whose
next byte is a digit: it takes a run of digits, then a point and a run of
digits if a point comes next, then an `e` or `E`, a sign if one comes next,
and a run of digits if an `e` or `E` comes next (and a digit was seen). What
was taken is converted: without a digit in it, or with an exponent without
digits, the conversion fails, `n` is 0 and `failbit` is set; a number too
large for a double sets `failbit` and `n` is the largest double. The result
is `n` and the stream afterwards. -/
def istringstream.read_double (ss : istringstream) : dbl × istringstream :=
  let ip := ss.rest.takeWhile is_digit_byte
  let r1 := ss.rest.dropWhile is_digit_byte
  let fp := match r1 with
    | 46 :: t => t.takeWhile is_digit_byte
    | _ => []
  let r2 := match r1 with
    | 46 :: t => t.dropWhile is_digit_byte
    | _ => r1
  let mantissa := decimal_value (ip ++ fp)
  let found_mantissa := !(ip ++ fp).isEmpty
  let found_sci := match r2 with
    | c :: _ => found_mantissa && (c == 101 || c == 69)
    | [] => false
  if found_sci then
    let r3 := r2.tail
    let negative := match r3 with
      | 45 :: _ => true
      | _ => false
    let r4 := match r3 with
      | 43 :: t => t
      | 45 :: t => t
      | _ => r3
    let ep := r4.takeWhile is_digit_byte
    let r5 := r4.dropWhile is_digit_byte
    if ep.isEmpty then (⟨0, 1⟩, ⟨r5, true⟩)
    else
      let num := if negative then mantissa else mantissa * 10 ^ decimal_value ep
      let den := if negative then 10 ^ fp.length * 10 ^ decimal_value ep else 10 ^ fp.length
      if dbl_overflow * den ≤ num then (⟨dbl_max, 1⟩, ⟨r5, true⟩)
      else (⟨num, den⟩, ⟨r5, ss.fail⟩)
  else if !found_mantissa then (⟨0, 1⟩, ⟨r2, true⟩)
  else if dbl_overflow * 10 ^ fp.length ≤ mantissa then (⟨dbl_max, 1⟩, ⟨r2, true⟩)
  else (⟨mantissa, 10 ^ fp.length⟩, ⟨r2, ss.fail⟩)

/-- The loop of `utils::seconds_from_time_str`: `fuel` bounds the number of
turns, `s` is the sum so far; the result is what the function returns, or
nothing when the turns are used up. -/
def utils.seconds_loop : Nat → istringstream → dbl → Option Int
  | 0, _, _ => none
  | fuel + 1, ss, s =>
    let c := to_char ss.peek
    if c = -1 then some s.to_int
    else if !isdigit c then some (-1)
    else
      let n := ss.read_double.1
      let ss1 := ss.read_double.2
      if n.num < 0 then some (-1)
      else
        let c1 := to_char ss1.peek
        if isalpha c1 then
          let ss2 := ss1.get
          if c1 = 115 then utils.seconds_loop fuel ss2 (s.add n)
          else if c1 = 109 then utils.seconds_loop fuel ss2 (s.add (n.scale 60))
          else if c1 = 104 then utils.seconds_loop fuel ss2 (s.add (n.scale 3600))
          else if c1 = 100 then utils.seconds_loop fuel ss2 (s.add (n.scale 86400))
          else some (-1)
        else utils.seconds_loop fuel ss1 (s.add n)

/-- Function `utils::seconds_from_time_str`. Every turn of the loop that
does not return reads a byte, so one turn more than the string has bytes is
enough. -/
def utils.seconds_from_time_str (str : List Nat) : Option Int :=
  utils.seconds_loop (str.length + 1) ⟨str, false⟩ ⟨0, 1⟩

/-- The seconds a unit letter stands for: `s`, `m`, `h`, `d`. -/
def unit_seconds (u : Nat) : Nat :=
  if u = 115 then 1
  else if u = 109 then 60
  else if u = 104 then 3600
  else if u = 100 then 86400
  else 0

/-- Whether a byte is one of the unit letters `s`, `m`, `h`, `d`. -/
def is_unit_byte (u : Nat) : Bool :=
  u == 115 || u == 109 || u == 104 || u == 100

/-- The text of a sequence of groups, each a run of digits and a unit
letter. -/
def groups_text (gs : List (List Nat × Nat)) : List Nat :=
  (gs.map (fun g => g.1 ++ [g.2])).flatten

/-- The seconds a sequence of groups stands for. -/
def groups_seconds (gs : List (List Nat × Nat)) : Nat :=
  (gs.map (fun g => decimal_value g.1 * unit_seconds g.2)).sum

/-- Whether a string is a concatenation of groups of one or more decimal
digits, each optionally followed by one of the letters `s`, `m`, `h`, `d`;
`after_digit` says whether the byte before was a digit. -/
def time_text_from (after_digit : Bool) : List Nat → Bool
  | [] => true
  | b :: t =>
    if is_digit_byte b then time_text_from true t
    else if is_unit_byte b && after_digit then time_text_from false t
    else false

/-- Whether a string is a concatenation of groups of one or more decimal
digits, each optionally followed by one of the letters `s`, `m`, `h`, `d`. -/
def is_time_text (str : List Nat) : Bool :=
  time_text_from false str

/-- A number as the stream takes it for a `double`: the digits before the
point, the digits behind the point when there is a point, and, when there is
an exponent, its letter, its sign and its digits. -/
structure numeral where
  ip : List Nat
  fp : Option (List Nat)
  ex : Option (Nat × List Nat × List Nat)
  deriving DecidableEq, Repr

/-- The bytes of a number: the digits, then the point and the digits behind
it, then the letter, the sign and the digits of the exponent. -/
def numeral.text (x : numeral) : List Nat :=
  x.ip ++
    (match x.fp with
      | some f => 46 :: f
      | none => []) ++
    (match x.ex with
      | some (e, sg, ep) => e :: (sg ++ ep)
      | none => [])

/-- Whether a number is well formed: there is a digit before the point, the
runs of digits hold digits only, the letter of the exponent is `e` or `E`,
its sign is nothing, `+` or `-`, and the exponent has a digit. -/
def numeral.wf (x : numeral) : Bool :=
  !x.ip.isEmpty && x.ip.all is_digit_byte && (x.fp.getD []).all is_digit_byte &&
    (match x.ex with
      | some (e, sg, ep) =>
        (e == 101 || e == 69) && (sg == [] || sg == [43] || sg == [45]) &&
          !ep.isEmpty && ep.all is_digit_byte
      | none => true)

/-- The double a well-formed number is converted to, as an exact fraction:
the digits before and behind the point, over the power of ten of the digits
behind the point, times or over the power of ten of the exponent. -/
def numeral.value (x : numeral) : dbl :=
  let fp := x.fp.getD []
  let mantissa := decimal_value (x.ip ++ fp)
  match x.ex with
  | some (_, sg, ep) =>
    if sg = [45] then ⟨mantissa, 10 ^ fp.length * 10 ^ decimal_value ep⟩
    else ⟨(mantissa * 10 ^ decimal_value ep : Nat), 10 ^ fp.length⟩
  | none => ⟨mantissa, 10 ^ fp.length⟩

/-- Whether a number is not too large for a double. -/
def numeral.fits (x : numeral) : Bool :=
  decide (x.value.num < ((dbl_overflow * x.value.den : Nat) : Int))

/-- Whether the stream leaves a byte that stands right behind a number out
of the number: the byte is no digit, it is no point unless the number has a
point or an exponent, and it is no `e` or `E` unless the number has an
exponent. -/
def numeral.ends_at (x : numeral) (c : Nat) : Bool :=
  !is_digit_byte c && (c != 46 || x.fp.isSome || x.ex.isSome) &&
    ((c != 101 && c != 69) || x.ex.isSome)

/-- The bytes of a number that may be missing. -/
def numeral.text_of : Option numeral → List Nat
  | some x => x.text
  | none => []

/-- The text of a sequence of groups, each a number and a unit letter. -/
def numerals_text (gs : List (numeral × Nat)) : List Nat :=
  (gs.map (fun g => g.1.text ++ [g.2])).flatten

/-! ## Word wrapping (src/wordwrap.cpp)

A string is the list of its bytes and a `std::ostringstream` that is only
appended to is the list of the bytes written to it, `tellp ()` being its
length. The vector `out` is the list of its lines. -/

/-- What `while (space_count-- > 0) line << ' '` appends. -/
def wordwrap.spaces (space_count : Int) : List Nat :=
  List.replicate space_count.toNat 32

/-- The `size_t` an `int` is converted to (for `substr` and `erase`, and in
`w.size () - rem`). -/
def to_size_t (v : Int) : Nat :=
  (v % 18446744073709551616).toNat

/-- The loop `while (w.size () > 0)` of `push_word`, which splits a word
that is longer than a line: `out` and `line` afterwards. `fuel` bounds the
number of turns; the result is nothing when the turns are used up. -/
def wordwrap.split_word : Nat → List (List Nat) → List Nat → List Nat → Int →
    Option (List (List Nat) × List Nat)
  | 0, _, _, _, _ => none
  | fuel + 1, out, line, w, max_line =>
    if w.length > 0 then
      let rem0 : Int := max_line - line.length
      let flush := decide (¬ ((w.length : Int) ≤ rem0)) && decide (rem0 < 5)
      let out1 := if flush then out ++ [line] else out
      let line1 := if flush then [] else line
      let rem : Int :=
        if (w.length : Int) ≤ rem0 then w.length
        else if rem0 < 5 then max_line
        else rem0
      let write : Int := if to_size_t (w.length - rem) > 0 then rem - 1 else rem
      let line2 := line1 ++ w.take (to_size_t write)
      let w1 := w.drop (to_size_t write)
      let line3 := if w1.length > 0 then line2 ++ [45] else line2
      wordwrap.split_word fuel out1 line3 w1 max_line
    else some (out, line)

/-- Function `push_word`: `out` and `line` afterwards (`word` is empty
afterwards); nothing when the loop that splits a long word does not end.
That loop takes at least one byte off the word in every turn or none in any,
so one turn more than the word has bytes is enough for it when it ends. -/
def wordwrap.push_word (out : List (List Nat)) (line word : List Nat) (space_count : Int)
    (_word_length : Int) (max_line : Int) : Option (List (List Nat) × List Nat) :=
  if (word.length : Int) > max_line then
    let line1 := if line.length > 0 then line ++ wordwrap.spaces space_count else line
    wordwrap.split_word (word.length + 1) out line1 word max_line
  else
    let flush := decide ((line.length : Int) + word.length > max_line)
    let out1 := if flush then out ++ [line] else out
    let line1 := if flush then [] else line
    let line2 := if line1.length > 0 then line1 ++ wordwrap.spaces space_count else line1
    some (out1, line2 ++ word)

/-- The local variables of `wrap_simple` together with `out`. -/
structure wrap_state where
  out : List (List Nat)
  line : List Nat
  word : List Nat
  word_length : Int
  space_count : Int
  prev_space_count : Int
  is_color : Bool
  deriving DecidableEq, Repr

/-- The loop `while ((c = (int)(*in++)))` of `wrap_simple` over the bytes
that are left; `skip` says that the next byte was stepped over by `++ in`.
The result is nothing when a call of `push_word` does not end. -/
def wordwrap.wrap_loop (max_line : Int) : Bool → List Nat → wrap_state → Option wrap_state
  | _, [], st => some st
  | true, _ :: rest, st => wordwrap.wrap_loop max_line false rest st
  | false, b :: rest, st =>
    let c := to_char b
    if c = 0 then some st
    else if c = 32 then
      wordwrap.wrap_loop max_line false rest { st with space_count := st.space_count + 1 }
    else
      let pushed :=
        if st.space_count > 0 then
          match wordwrap.push_word st.out st.line st.word st.prev_space_count st.word_length
              max_line with
          | some r =>
            some { st with out := r.1, line := r.2, word := [],
                           prev_space_count := st.space_count, word_length := 0,
                           space_count := 0 }
          | none => none
        else some st
      match pushed with
      | none => none
      | some st1 =>
        let st2 := { st1 with word := st1.word ++ [b] }
        if c = 194 ∧ rest.head? = some 167 then
          wordwrap.wrap_loop max_line true rest { st2 with is_color := true }
        else if st2.is_color then
          wordwrap.wrap_loop max_line false rest { st2 with is_color := false }
        else
          wordwrap.wrap_loop max_line false rest { st2 with word_length := st2.word_length + 1 }

/-- The search of `wrap_colors` through a line, from its end, for a chat
code behind the byte 0xA7 at an index of at least 2: the code found, if any.
`idx` is the index of the first byte of the list in the line. -/
def wordwrap.last_code (is_chat_code : Nat → Bool) : Nat → List Nat → Option Nat
  | _, [] => none
  | _, [_] => none
  | idx, a :: b :: rest =>
    match wordwrap.last_code is_chat_code (idx + 1) (b :: rest) with
    | some code => some code
    | none => if idx + 1 ≥ 2 ∧ is_chat_code b = true ∧ a = 167 then some b else none

/-- The loop of `wrap_colors` from the line `cur` on, with the lines behind
it: the lines afterwards. `last_col` is the colour code found so far. -/
def wordwrap.wrap_colors_from (is_chat_code : Nat → Bool) :
    Option (List Nat) → List Nat → List (List Nat) → List (List Nat)
  | _, cur, [] => [cur]
  | last_col, cur, next :: rest =>
    let col := match wordwrap.last_code is_chat_code 0 cur with
      | some code => some [194, 167, code]
      | none => last_col
    match col with
    | some code => cur :: wordwrap.wrap_colors_from is_chat_code col (code ++ next) rest
    | none => cur :: wordwrap.wrap_colors_from is_chat_code col next rest

/-- Function `wordwrap::wrap_colors`. `is_chat_code` is declared outside the
sources and is a parameter. -/
def wordwrap.wrap_colors (is_chat_code : Nat → Bool) : List (List Nat) → List (List Nat)
  | [] => []
  | first :: rest => wordwrap.wrap_colors_from is_chat_code none first rest

/-- Function `wordwrap::wrap_simple`: the vector `out` afterwards, or nothing
when the function does not return. -/
def wordwrap.wrap_simple (is_chat_code : Nat → Bool) (out : List (List Nat)) (input : List Nat)
    (max_line : Int) : Option (List (List Nat)) :=
  match wordwrap.wrap_loop max_line false input ⟨out, [], [], 0, 0, 0, false⟩ with
  | none => none
  | some st =>
    let pushed :=
      if st.word.length > 0 then
        wordwrap.push_word st.out st.line st.word st.prev_space_count st.word_length max_line
      else some (st.out, st.line)
    match pushed with
    | none => none
    | some r =>
      let out1 := if r.2.length > 0 then r.1 ++ [r.2] else r.1
      some (wordwrap.wrap_colors is_chat_code out1)

/-! ## Theorems -/

/-! ### Tables keyed by case-insensitive strings -/

theorem cistring.equals_iff (a b : String) :
    cistring.equals a b = true ↔ cistring.fold a = cistring.fold b := by
  simp [cistring.equals]

theorem cistring.equals_refl (a : String) : cistring.equals a a = true := by
  simp [cistring.equals]

theorem cistring.equals_of_eq {a b : String} (h : a = b) : cistring.equals a b = true := by
  subst h
  exact cistring.equals_refl a

theorem cistring.equals_symm {a b : String} (h : cistring.equals a b = true) :
    cistring.equals b a = true := by
  rw [cistring.equals_iff] at h ⊢
  exact h.symm

theorem cistring.equals_comm (a b : String) :
    cistring.equals a b = cistring.equals b a := by
  cases h : cistring.equals b a
  · cases h1 : cistring.equals a b
    · rfl
    · rw [cistring.equals_symm h1] at h
      exact absurd h (by decide)
  · exact cistring.equals_symm h

theorem cistring.equals_trans {a b c : String} (h1 : cistring.equals a b = true)
    (h2 : cistring.equals b c = true) : cistring.equals a c = true := by
  rw [cistring.equals_iff] at h1 h2 ⊢
  exact h1.trans h2

theorem cistring.equals_false_of_left {a b c : String} (h1 : cistring.equals a b = true)
    (h2 : cistring.equals a c = false) : cistring.equals b c = false := by
  cases h : cistring.equals b c
  · rfl
  · rw [cistring.equals_trans h1 h] at h2
    exact absurd h2 (by decide)

theorem ci_map.find_eq_none_iff {V : Type} (m : List (String × V)) (name : String) :
    ci_map.find m name = none ↔ ∀ e ∈ m, cistring.equals e.1 name = false := by
  simp [ci_map.find, List.find?_eq_none]

theorem ci_map.find_some_mem {V : Type} {m : List (String × V)} {name : String}
    {e : String × V} (h : ci_map.find m name = some e) :
    e ∈ m ∧ cistring.equals e.1 name = true := by
  unfold ci_map.find at h
  exact ⟨List.mem_of_find?_eq_some h, by simpa using List.find?_some h⟩

theorem ci_map.find_cons {V : Type} (e : String × V) (es : List (String × V))
    (name : String) :
    ci_map.find (e :: es) name =
      if cistring.equals e.1 name then some e else ci_map.find es name := by
  simp only [ci_map.find, List.find?_cons]
  cases cistring.equals e.1 name <;> rfl

theorem ci_map.assign_of_find_none {V : Type} (m : List (String × V)) (key : String) (v : V)
    (h : ci_map.find m key = none) : ci_map.assign m key v = m ++ [(key, v)] := by
  induction m with
  | nil => rfl
  | cons e es ih =>
    rw [ci_map.find_cons] at h
    cases he : cistring.equals e.1 key
    · rw [he] at h
      simp only [ci_map.assign, he, Bool.false_eq_true, if_false, List.cons_append]
      rw [ih (by simpa using h)]
    · rw [he] at h
      simp at h

theorem ci_map.find_added {V : Type} (m : List (String × V)) (key name : String)
    (v : V) (h : ci_map.find m key = none) :
    ci_map.find (m ++ [(key, v)]) name =
      if cistring.equals key name then some (key, v) else ci_map.find m name := by
  induction m with
  | nil =>
    simp only [List.nil_append, ci_map.find_cons]
  | cons e es ih =>
    rw [ci_map.find_cons] at h
    cases he : cistring.equals e.1 key
    · rw [he] at h
      have ih1 := ih (by simpa using h)
      simp only [List.cons_append, ci_map.find_cons]
      cases hk : cistring.equals key name
      · rw [ih1, hk]
        simp
      · have hn : cistring.equals e.1 name = false := by
          cases hn : cistring.equals e.1 name
          · rfl
          · rw [cistring.equals_trans hn (cistring.equals_symm hk)] at he
            exact absurd he (by decide)
        rw [hn, ih1, hk]
        simp
    · rw [he] at h
      simp at h

theorem ci_map.unique_keys_added {V : Type} (m : List (String × V)) (key : String) (v : V)
    (hu : ci_map.unique_keys m) (h : ci_map.find m key = none) :
    ci_map.unique_keys (m ++ [(key, v)]) := by
  unfold ci_map.unique_keys at hu ⊢
  rw [List.pairwise_append]
  refine ⟨hu, List.pairwise_singleton _ _, ?_⟩
  intro a ha b hb
  rw [List.mem_singleton] at hb
  subst hb
  exact (ci_map.find_eq_none_iff m key).1 h a ha

theorem ci_map.unique_keys_eraseP {V : Type} (m : List (String × V)) (p : String × V → Bool)
    (hu : ci_map.unique_keys m) : ci_map.unique_keys (m.eraseP p) :=
  List.Pairwise.sublist (List.eraseP_sublist m) hu

/-- Erasing the first entry that satisfies `p` leaves no entry under `name`,
when the entries that satisfy `p` are stored under `name` and there is one. -/
theorem ci_map.find_eraseP_self {V : Type} (p : String × V → Bool) (name : String) :
    ∀ m : List (String × V), ci_map.unique_keys m →
      (∀ e ∈ m, p e = true → cistring.equals e.1 name = true) →
      (∃ e ∈ m, p e = true) → ci_map.find (m.eraseP p) name = none := by
  intro m
  induction m with
  | nil =>
    intro _ _ hex
    obtain ⟨e, he, _⟩ := hex
    simp at he
  | cons e es ih =>
    intro hu hp hex
    unfold ci_map.unique_keys at hu
    rw [List.pairwise_cons] at hu
    cases hpe : p e
    · have hex1 : ∃ x ∈ es, p x = true := by
        obtain ⟨x, hx, hpx⟩ := hex
        rcases List.mem_cons.1 hx with h | h
        · subst h
          rw [hpe] at hpx
          exact absurd hpx (by decide)
        · exact ⟨x, h, hpx⟩
      have hrest := ih hu.2 (fun x hx => hp x (List.mem_cons_of_mem _ hx)) hex1
      obtain ⟨x, hx, hpx⟩ := hex1
      have hxn := hp x (List.mem_cons_of_mem _ hx) hpx
      have hen : cistring.equals e.1 name = false := by
        cases h : cistring.equals e.1 name
        · rfl
        · have := cistring.equals_trans h (cistring.equals_symm hxn)
          rw [hu.1 x hx] at this
          exact absurd this (by decide)
      rw [List.eraseP_cons_of_neg (by simp [hpe]), ci_map.find_cons, hen]
      simpa using hrest
    · have hen := hp e (List.mem_cons_self _ _) hpe
      rw [List.eraseP_cons_of_pos hpe, ci_map.find_eq_none_iff]
      intro x hx
      rw [cistring.equals_comm]
      exact cistring.equals_false_of_left hen (hu.1 x hx)

/-- Erasing the first entry that satisfies `p` does not change what is found
under `name`, when no entry that satisfies `p` is stored under `name`. -/
theorem ci_map.find_eraseP_other {V : Type} (p : String × V → Bool) (name : String) :
    ∀ m : List (String × V),
      (∀ e ∈ m, p e = true → cistring.equals e.1 name = false) →
      ci_map.find (m.eraseP p) name = ci_map.find m name := by
  intro m
  induction m with
  | nil => intro _; rfl
  | cons e es ih =>
    intro hp
    cases hpe : p e
    · rw [List.eraseP_cons_of_neg (by simp [hpe]), ci_map.find_cons, ci_map.find_cons,
        ih (fun x hx => hp x (List.mem_cons_of_mem _ hx))]
    · rw [List.eraseP_cons_of_pos hpe, ci_map.find_cons,
        hp e (List.mem_cons_self _ _) hpe]
      simp

theorem ci_map.find_of_mem {V : Type} (name : String) :
    ∀ m : List (String × V), ci_map.unique_keys m → ∀ e ∈ m,
      cistring.equals e.1 name = true → ci_map.find m name = some e := by
  intro m
  induction m with
  | nil => intro _ e he; exact absurd he (List.not_mem_nil e)
  | cons x xs ih =>
    intro hu e he hen
    unfold ci_map.unique_keys at hu
    rw [List.pairwise_cons] at hu
    rw [ci_map.find_cons]
    rcases List.mem_cons.1 he with h | h
    · subst h
      rw [hen]
      rfl
    · have hx : cistring.equals x.1 name = false := by
        cases hx : cistring.equals x.1 name
        · rfl
        · have hxe := hu.1 e h
          rw [cistring.equals_trans hx (cistring.equals_symm hen)] at hxe
          exact absurd hxe (by decide)
      rw [hx]
      simpa using ih hu.2 e h hen

/-! ### The player list -/

theorem playerlist.find_case_insensitive_eq (l : playerlist) (name : String) :
    l.find name player_find_method.case_insensitive =
      (ci_map.find l.players name).map Prod.snd := by
  unfold playerlist.find
  cases ci_map.find l.players name <;> rfl

theorem playerlist.add_of_find_none (l : playerlist) (pl : player)
    (h : ci_map.find l.players pl.username = none) :
    l.add pl = (true, { l with players := l.players ++ [(pl.username, pl)] }) := by
  have hf : l.find pl.username player_find_method.case_insensitive = none := by
    rw [playerlist.find_case_insensitive_eq, h]
    rfl
  simp only [playerlist.add, hf, ci_map.assign_of_find_none _ _ _ h]

theorem playerlist.add_of_find_some (l : playerlist) (pl : player) (e : String × player)
    (h : ci_map.find l.players pl.username = some e) : l.add pl = (false, l) := by
  have hf : l.find pl.username player_find_method.case_insensitive = some e.2 := by
    rw [playerlist.find_case_insensitive_eq, h]
    rfl
  simp only [playerlist.add, hf]

/-- C9: `add (pl)` returns false and leaves the list as it was when the list
holds an entry under a name equal to the user name of `pl` ignoring case (for
a list that is `keyed`: when it holds a player with such a user name);
otherwise it returns true, `count ()` is one more than before, and `find`
with `case_insensitive` gives `pl` for the user name of `pl`. -/
theorem playerlist_add_spec (l : playerlist) (pl : player) :
    ((∃ e ∈ l.players, cistring.equals e.1 pl.username = true) →
      (l.add pl).1 = false ∧ (l.add pl).2 = l) ∧
    (l.keyed → (∃ e ∈ l.players, cistring.equals e.2.username pl.username = true) →
      (l.add pl).1 = false ∧ (l.add pl).2 = l) ∧
    ((¬ ∃ e ∈ l.players, cistring.equals e.1 pl.username = true) →
      (l.add pl).1 = true ∧ (l.add pl).2.count = l.count + 1 ∧
      (l.add pl).2.find pl.username player_find_method.case_insensitive = some pl) := by
  have hfalse : (∃ e ∈ l.players, cistring.equals e.1 pl.username = true) →
      (l.add pl).1 = false ∧ (l.add pl).2 = l := by
    rintro ⟨e, he, hee⟩
    cases hf : ci_map.find l.players pl.username with
    | none =>
      rw [(ci_map.find_eq_none_iff l.players pl.username).1 hf e he] at hee
      exact absurd hee (by decide)
    | some x =>
      rw [playerlist.add_of_find_some l pl x hf]
      exact ⟨rfl, rfl⟩
  refine ⟨hfalse, ?_, ?_⟩
  · rintro hk ⟨e, he, hee⟩
    exact hfalse ⟨e, he, by rw [hk e he]; exact hee⟩
  · intro hno
    have hf : ci_map.find l.players pl.username = none := by
      rw [ci_map.find_eq_none_iff]
      intro e he
      cases h : cistring.equals e.1 pl.username
      · rfl
      · exact absurd ⟨e, he, h⟩ hno
    rw [playerlist.add_of_find_none l pl hf]
    refine ⟨rfl, ?_, ?_⟩
    · simp [playerlist.count]
    · rw [playerlist.find_case_insensitive_eq]
      simp only
      rw [ci_map.find_added l.players pl.username pl.username pl hf, cistring.equals_refl]
      rfl

/-- C9, witness: with "Notch" in the list, "notch" is refused and "jeb" is
taken in: the count goes from 1 to 2 and "jeb" is found. -/
theorem playerlist_add_spec_witness :
    ((playerlist.empty.add ⟨1, "Notch"⟩).2.add ⟨2, "notch"⟩).1 = false ∧
    ((playerlist.empty.add ⟨1, "Notch"⟩).2.add ⟨3, "jeb"⟩).2.count =
      (playerlist.empty.add ⟨1, "Notch"⟩).2.count + 1 :=
  ⟨((playerlist_add_spec (playerlist.empty.add ⟨1, "Notch"⟩).2 ⟨2, "notch"⟩).1
      ⟨("Notch", ⟨1, "Notch"⟩), by decide, by decide⟩).1,
    ((playerlist_add_spec (playerlist.empty.add ⟨1, "Notch"⟩).2 ⟨3, "jeb"⟩).2.2
      (by decide)).2.1⟩

/-- C10: `find` with `case_sensitive` gives a player only when the player is
stored under exactly the name asked for; with `case_insensitive` it gives a
player stored under a name equal to the one asked for ignoring case, and, the
keys of the table being unique, it gives the player stored under such a name
whenever there is one (as `case_sensitive` does for the player stored under
exactly the name); what `case_sensitive` gives, `case_insensitive` gives
too; `name_completion` gives null. -/
theorem playerlist_find_spec (l : playerlist) (name : String) :
    (∀ p, l.find name player_find_method.case_sensitive = some p → (name, p) ∈ l.players) ∧
    (∀ p, l.find name player_find_method.case_insensitive = some p →
      ∃ k, (k, p) ∈ l.players ∧ cistring.equals k name = true) ∧
    (ci_map.unique_keys l.players → ∀ k p, (k, p) ∈ l.players →
      cistring.equals k name = true →
      l.find name player_find_method.case_insensitive = some p) ∧
    (ci_map.unique_keys l.players → ∀ p, (name, p) ∈ l.players →
      l.find name player_find_method.case_sensitive = some p) ∧
    (∀ p, l.find name player_find_method.case_sensitive = some p →
      l.find name player_find_method.case_insensitive = some p) ∧
    l.find name player_find_method.name_completion = none := by
  refine ⟨?_, ?_, ?_, ?_, ?_, rfl⟩
  · intro p h
    unfold playerlist.find at h
    cases hf : ci_map.find l.players name with
    | none => rw [hf] at h; simp at h
    | some e =>
      rw [hf] at h
      simp only at h
      split at h
      · rename_i hk
        have hm := (ci_map.find_some_mem hf).1
        have hp : e.2 = p := by simpa using h
        rw [← hk, ← hp]
        exact hm
      · simp at h
  · intro p h
    rw [playerlist.find_case_insensitive_eq] at h
    cases hf : ci_map.find l.players name with
    | none => rw [hf] at h; simp at h
    | some e =>
      rw [hf] at h
      have hm := ci_map.find_some_mem hf
      have hp : e.2 = p := by simpa using h
      exact ⟨e.1, by rw [← hp]; exact hm.1, hm.2⟩
  · intro hu k p hm hk
    rw [playerlist.find_case_insensitive_eq, ci_map.find_of_mem name l.players hu (k, p) hm hk]
    rfl
  · intro hu p hm
    unfold playerlist.find
    rw [ci_map.find_of_mem name l.players hu (name, p) hm (cistring.equals_refl name)]
    simp
  · intro p h
    unfold playerlist.find at h ⊢
    cases hf : ci_map.find l.players name with
    | none => rw [hf] at h; simp at h
    | some e =>
      rw [hf] at h
      simp only at h ⊢
      split at h
      · exact h
      · simp at h

/-- C10, witness: in the list that holds "Notch", the name "Notch" is found
with either method, and "notch" with `case_insensitive` only. -/
theorem playerlist_find_spec_witness :
    (playerlist.empty.add ⟨1, "Notch"⟩).2.find "Notch" player_find_method.case_insensitive =
      some ⟨1, "Notch"⟩ ∧
    (playerlist.empty.add ⟨1, "Notch"⟩).2.find "notch" player_find_method.case_insensitive =
      some ⟨1, "Notch"⟩ ∧
    (playerlist.empty.add ⟨1, "Notch"⟩).2.find "notch" player_find_method.case_sensitive =
      none :=
  ⟨(playerlist_find_spec (playerlist.empty.add ⟨1, "Notch"⟩).2 "Notch").2.2.2.2.1
      ⟨1, "Notch"⟩ (by decide),
    (playerlist_find_spec (playerlist.empty.add ⟨1, "Notch"⟩).2 "notch").2.2.1
      (by decide) "Notch" ⟨1, "Notch"⟩ (by decide) (by decide),
    by decide⟩

/-! ### The world table of the server -/

theorem server_data.find_world_eq (s : server_data) (name : String) :
    s.find_world name = (ci_map.find s.worlds name).map Prod.snd := by
  unfold server_data.find_world
  cases ci_map.find s.worlds name <;> rfl

theorem server_data.add_world_of_find_none (s : server_data) (w : world)
    (h : ci_map.find s.worlds w.name = none) :
    s.add_world w = (true, { s with worlds := s.worlds ++ [(w.name, w)] }) := by
  simp only [server_data.add_world, h, ci_map.assign_of_find_none _ _ _ h]

theorem server_data.add_world_of_find_some (s : server_data) (w : world) (e : String × world)
    (h : ci_map.find s.worlds w.name = some e) : s.add_world w = (false, s) := by
  simp only [server_data.add_world, h]

theorem server_data.add_world_true_iff (s : server_data) (w : world) :
    (s.add_world w).1 = true ↔ ci_map.find s.worlds w.name = none := by
  cases h : ci_map.find s.worlds w.name with
  | none => simp [server_data.add_world_of_find_none s w h]
  | some e => simp [server_data.add_world_of_find_some s w e h]

theorem registry_inv_nil : registry_inv [] :=
  ⟨List.Pairwise.nil, fun e he => absurd he (List.not_mem_nil e)⟩

theorem registry_inv_added (ws : List (String × world)) (w : world) (h : registry_inv ws)
    (hn : ci_map.find ws w.name = none) : registry_inv (ws ++ [(w.name, w)]) := by
  refine ⟨ci_map.unique_keys_added ws w.name w h.1 hn, ?_⟩
  intro e he
  rcases List.mem_append.1 he with h1 | h1
  · exact h.2 e h1
  · rw [List.mem_singleton] at h1
    subst h1
    rfl

theorem registry_inv_eraseP (ws : List (String × world)) (p : String × world → Bool)
    (h : registry_inv ws) : registry_inv (ws.eraseP p) :=
  ⟨ci_map.unique_keys_eraseP ws p h.1, fun e he => h.2 e (List.mem_of_mem_eraseP he)⟩

theorem registry_inv_apply (s : server_data) (op : registry_op) (h : registry_inv s.worlds) :
    registry_inv (op.apply s).worlds := by
  cases op with
  | add w =>
    simp only [registry_op.apply]
    cases hf : ci_map.find s.worlds w.name with
    | none =>
      rw [server_data.add_world_of_find_none s w hf]
      exact registry_inv_added s.worlds w h hf
    | some e =>
      rw [server_data.add_world_of_find_some s w e hf]
      exact h
  | remove w => exact registry_inv_eraseP s.worlds _ h
  | remove_name name => exact registry_inv_eraseP s.worlds _ h
  | clear => exact registry_inv_nil

theorem registry_inv_run (ops : List registry_op) :
    ∀ s : server_data, registry_inv s.worlds → registry_inv (s.run_registry ops).worlds := by
  induction ops with
  | nil => intro s h; exact h
  | cons op ops ih =>
    intro s h
    exact ih (op.apply s) (registry_inv_apply s op h)

/-- Every entry of the table after one operation was there before or is the
entry the operation added. -/
theorem registry_apply_origin (s : server_data) (op : registry_op) (e : String × world)
    (he : e ∈ (op.apply s).worlds) :
    e ∈ s.worlds ∨ ∃ w, op = registry_op.add w ∧ e = (w.name, w) := by
  cases op with
  | add w =>
    simp only [registry_op.apply] at he
    cases hf : ci_map.find s.worlds w.name with
    | none =>
      rw [server_data.add_world_of_find_none s w hf] at he
      rcases List.mem_append.1 he with h1 | h1
      · exact Or.inl h1
      · exact Or.inr ⟨w, rfl, List.mem_singleton.1 h1⟩
    | some x =>
      rw [server_data.add_world_of_find_some s w x hf] at he
      exact Or.inl he
  | remove w => exact Or.inl (List.mem_of_mem_eraseP he)
  | remove_name name => exact Or.inl (List.mem_of_mem_eraseP he)
  | clear => exact absurd he (List.not_mem_nil e)

theorem registry_run_origin (ops : List registry_op) :
    ∀ (s : server_data) (e : String × world), e ∈ (s.run_registry ops).worlds →
      e ∈ s.worlds ∨ ∃ w, registry_op.add w ∈ ops ∧ e = (w.name, w) := by
  induction ops with
  | nil => intro s e he; exact Or.inl he
  | cons op ops ih =>
    intro s e he
    rcases ih (op.apply s) e he with h1 | ⟨w, hw, hew⟩
    · rcases registry_apply_origin s op e h1 with h2 | ⟨w, hw, hew⟩
      · exact Or.inl h2
      · exact Or.inr ⟨w, by rw [hw]; exact List.mem_cons_self _ _, hew⟩
    · exact Or.inr ⟨w, List.mem_cons_of_mem _ hw, hew⟩

theorem server_data.find_world_add_world (s : server_data) (w : world)
    (h : (s.add_world w).1 = true) : (s.add_world w).2.find_world w.name = some w := by
  rw [server_data.add_world_true_iff] at h
  rw [server_data.add_world_of_find_none s w h, server_data.find_world_eq]
  simp only
  rw [ci_map.find_added s.worlds w.name w.name w h, cistring.equals_refl]
  rfl

theorem server_data.find_world_add_world_other (s : server_data) (w : world) (name : String)
    (hn : cistring.equals w.name name = false) :
    (s.add_world w).2.find_world name = s.find_world name := by
  cases hf : ci_map.find s.worlds w.name with
  | none =>
    rw [server_data.add_world_of_find_none s w hf, server_data.find_world_eq,
      server_data.find_world_eq]
    simp only
    rw [ci_map.find_added s.worlds w.name name w hf, hn]
    simp
  | some e => rw [server_data.add_world_of_find_some s w e hf]

theorem server_data.find_world_remove_world (s : server_data) (w : world)
    (hinv : registry_inv s.worlds) (h : s.find_world w.name = some w) :
    (s.remove_world w).find_world w.name = none := by
  rw [server_data.find_world_eq] at h
  cases hf : ci_map.find s.worlds w.name with
  | none => rw [hf] at h; simp at h
  | some e =>
    rw [hf] at h
    have he := ci_map.find_some_mem hf
    have hew : e.2 = w := by simpa using h
    rw [server_data.find_world_eq]
    simp only [server_data.remove_world]
    rw [ci_map.find_eraseP_self (fun x => decide (x.2 = w)) w.name s.worlds hinv.1]
    · rfl
    · intro x hx hpx
      have hxw : x.2 = w := by simpa using hpx
      exact cistring.equals_of_eq (by rw [hinv.2 x hx, hxw])
    · exact ⟨e, he.1, by simpa using hew⟩

theorem server_data.find_world_remove_world_other (s : server_data) (w : world)
    (name : String) (hinv : registry_inv s.worlds)
    (hn : cistring.equals w.name name = false) :
    (s.remove_world w).find_world name = s.find_world name := by
  rw [server_data.find_world_eq, server_data.find_world_eq]
  simp only [server_data.remove_world]
  rw [ci_map.find_eraseP_other (fun x => decide (x.2 = w)) name s.worlds]
  intro x hx hpx
  have hxw : x.2 = w := by simpa using hpx
  rw [hinv.2 x hx, hxw]
  exact hn

theorem server_data.find_world_remove_world_name (s : server_data) (name : String)
    (hinv : registry_inv s.worlds) : (s.remove_world_name name).find_world name = none := by
  rw [server_data.find_world_eq]
  simp only [server_data.remove_world_name, ci_map.erase]
  by_cases hex : ∃ e ∈ s.worlds, cistring.equals e.1 name = true
  · rw [ci_map.find_eraseP_self (fun e => cistring.equals e.1 name) name s.worlds hinv.1
      (fun e _ h => h) hex]
    rfl
  · have hnone : ci_map.find s.worlds name = none := by
      rw [ci_map.find_eq_none_iff]
      intro e he
      cases h : cistring.equals e.1 name
      · rfl
      · exact absurd ⟨e, he, h⟩ hex
    rw [ci_map.find_eraseP_other (fun e => cistring.equals e.1 name) name s.worlds, hnone]
    · rfl
    · intro e he h
      exact absurd ⟨e, he, h⟩ hex

theorem server_data.find_world_remove_world_name_other (s : server_data) (n name : String)
    (hn : cistring.equals n name = false) :
    (s.remove_world_name n).find_world name = s.find_world name := by
  rw [server_data.find_world_eq, server_data.find_world_eq]
  simp only [server_data.remove_world_name, ci_map.erase]
  rw [ci_map.find_eraseP_other (fun e => cistring.equals e.1 n) name s.worlds]
  intro e _ h
  cases hx : cistring.equals e.1 name
  · rfl
  · rw [cistring.equals_trans (cistring.equals_symm h) hx] at hn
    exact absurd hn (by decide)

/-- C2: `add_world (w)` returns false exactly when the world table holds an
entry whose key equals the name of `w` ignoring case (for a table that obeys
`registry_inv` that is: holds a world whose name equals the name of `w`), and
then the server is as it was; when it returns true the table is the old one
with the one entry `name -> w` more, and nothing else of the server changed. -/
theorem add_world_false_iff_name_taken (s : server_data) (w : world) :
    ((s.add_world w).1 = false ↔ ∃ e ∈ s.worlds, cistring.equals e.1 w.name = true) ∧
    ((s.add_world w).1 = false → (s.add_world w).2 = s) ∧
    ((s.add_world w).1 = true →
      (s.add_world w).2 = { s with worlds := s.worlds ++ [(w.name, w)] }) ∧
    (registry_inv s.worlds →
      ((s.add_world w).1 = false ↔
        ∃ e ∈ s.worlds, cistring.equals e.2.name w.name = true)) := by
  have hiff : (s.add_world w).1 = false ↔
      ∃ e ∈ s.worlds, cistring.equals e.1 w.name = true := by
    cases hf : ci_map.find s.worlds w.name with
    | none =>
      rw [server_data.add_world_of_find_none s w hf]
      have hall := (ci_map.find_eq_none_iff s.worlds w.name).1 hf
      constructor
      · intro h
        simp at h
      · rintro ⟨e, he, hee⟩
        rw [hall e he] at hee
        exact absurd hee (by decide)
    | some e =>
      rw [server_data.add_world_of_find_some s w e hf]
      have he := ci_map.find_some_mem hf
      exact ⟨fun _ => ⟨e, he.1, he.2⟩, fun _ => rfl⟩
  refine ⟨hiff, ?_, ?_, ?_⟩
  · intro h
    cases hf : ci_map.find s.worlds w.name with
    | none =>
      rw [server_data.add_world_of_find_none s w hf] at h
      simp at h
    | some e => rw [server_data.add_world_of_find_some s w e hf]
  · intro h
    rw [server_data.add_world_true_iff] at h
    rw [server_data.add_world_of_find_none s w h]
  · intro hinv
    rw [hiff]
    constructor
    · rintro ⟨e, he, hee⟩
      exact ⟨e, he, by rw [← hinv.2 e he]; exact hee⟩
    · rintro ⟨e, he, hee⟩
      exact ⟨e, he, by rw [hinv.2 e he]; exact hee⟩

/-- C2, witness: a server that holds the world "main" refuses a second world
named "MAIN" and stays as it was. -/
theorem add_world_false_iff_name_taken_witness :
    ((server_data.initial.add_world ⟨1, "main"⟩).2.add_world ⟨2, "MAIN"⟩).1 = false ∧
    ((server_data.initial.add_world ⟨1, "main"⟩).2.add_world ⟨2, "MAIN"⟩).2 =
      (server_data.initial.add_world ⟨1, "main"⟩).2 :=
  ⟨by decide,
    (add_world_false_iff_name_taken (server_data.initial.add_world ⟨1, "main"⟩).2
      ⟨2, "MAIN"⟩).2.1 (by decide)⟩

/-- C3: on a server whose world table was built from the empty table by
`add_world`, the two `remove_world` and `destroy_worlds`:
after `add_world (w)` returned true `find_world` of the name of `w` gives
`w`; after `remove_world (w)` of a registered `w` (in particular of one just
added), and after `remove_world (name)`, `find_world` of that name gives
null; `find_world` of a name under which no world was ever added gives null;
and what `find_world` gives for any other name is not changed by
`add_world`, `remove_world (w)` or `remove_world (name)`. -/
theorem world_registry_round_trip (ops : List registry_op) (s0 s : server_data)
    (h0 : s0.worlds = []) (hs : s = s0.run_registry ops) :
    (∀ w, (s.add_world w).1 = true → (s.add_world w).2.find_world w.name = some w) ∧
    (∀ w, s.find_world w.name = some w → (s.remove_world w).find_world w.name = none) ∧
    (∀ w, (s.add_world w).1 = true →
      ((s.add_world w).2.remove_world w).find_world w.name = none) ∧
    (∀ name, (s.remove_world_name name).find_world name = none) ∧
    (∀ name, (∀ w, registry_op.add w ∈ ops → cistring.equals w.name name = false) →
      s.find_world name = none) ∧
    (∀ w name, cistring.equals w.name name = false →
      (s.add_world w).2.find_world name = s.find_world name ∧
      (s.remove_world w).find_world name = s.find_world name) ∧
    (∀ n name, cistring.equals n name = false →
      (s.remove_world_name n).find_world name = s.find_world name) := by
  have hinv0 : registry_inv s0.worlds := by rw [h0]; exact registry_inv_nil
  have hinv : registry_inv s.worlds := by rw [hs]; exact registry_inv_run ops s0 hinv0
  refine ⟨?_, ?_, ?_, ?_, ?_, ?_, ?_⟩
  · intro w h
    exact server_data.find_world_add_world s w h
  · intro w h
    exact server_data.find_world_remove_world s w hinv h
  · intro w h
    have hinv1 : registry_inv (s.add_world w).2.worlds :=
      registry_inv_apply s (registry_op.add w) hinv
    exact server_data.find_world_remove_world _ w hinv1
      (server_data.find_world_add_world s w h)
  · intro name
    exact server_data.find_world_remove_world_name s name hinv
  · intro name hnever
    rw [server_data.find_world_eq]
    have hnone : ci_map.find s.worlds name = none := by
      rw [ci_map.find_eq_none_iff]
      intro e he
      rw [hs] at he
      rcases registry_run_origin ops s0 e he with h1 | ⟨w, hw, hew⟩
      · rw [h0] at h1
        exact absurd h1 (List.not_mem_nil e)
      · rw [hew]
        exact hnever w hw
    rw [hnone]
    rfl
  · intro w name hn
    exact ⟨server_data.find_world_add_world_other s w name hn,
      server_data.find_world_remove_world_other s w name hinv hn⟩
  · intro n name hn
    exact server_data.find_world_remove_world_name_other s n name hn

/-- C3, witness: after "main" and "Nether" were added and "NETHER" removed
again, the world "End" can be added and is then found under its name. -/
theorem world_registry_round_trip_witness :
    server_data.initial.worlds = [] ∧
    ((server_data.initial.run_registry
        [registry_op.add ⟨1, "main"⟩, registry_op.add ⟨2, "Nether"⟩,
          registry_op.remove_name "NETHER"]).add_world ⟨3, "End"⟩).2.find_world "End" =
      some ⟨3, "End"⟩ :=
  ⟨rfl,
    (world_registry_round_trip
      [registry_op.add ⟨1, "main"⟩, registry_op.add ⟨2, "Nether"⟩,
        registry_op.remove_name "NETHER"]
      server_data.initial _ rfl rfl).1 ⟨3, "End"⟩ (by decide)⟩

/-! ### The chunk table -/

theorem world_chunks.get_chunk_of_empty_slot (t : world_chunks) (x z : Int)
    (h : t.last_chunk.ch = none) :
    (t.get_chunk x z).1 =
      (t.chunks.find? (fun e => e.1 == chunk_key x z)).map Prod.snd := by
  unfold world_chunks.get_chunk
  rw [h]
  simp only [Option.isSome_none, Bool.false_and, Bool.false_eq_true, if_false]
  cases t.chunks.find? (fun e => e.1 == chunk_key x z) <;> rfl

/-- C4: for every state of the table and of the `last_chunk` slot,
`get_chunk (cx, cz)` right after `put_chunk (cx, cz, g)` gives `g` (also
when a lookup of any coordinate has filled the slot just before the put),
and `get_chunk (cx, cz)` right after `remove_chunk (cx, cz)` gives null. -/
theorem chunk_table_round_trip (t : world_chunks) (cx cz : Int) (g : chunk) (save : Bool) :
    ((t.put_chunk cx cz g).get_chunk cx cz).1 = some g ∧
    (∀ x z : Int, (((t.get_chunk x z).2.put_chunk cx cz g).get_chunk cx cz).1 = some g) ∧
    ((t.remove_chunk cx cz save).get_chunk cx cz).1 = none ∧
    (∀ x z : Int, (((t.get_chunk x z).2.remove_chunk cx cz save).get_chunk cx cz).1 = none) := by
  have hput : ∀ u : world_chunks, ((u.put_chunk cx cz g).get_chunk cx cz).1 = some g := by
    intro u
    rw [world_chunks.get_chunk_of_empty_slot _ cx cz rfl]
    simp [world_chunks.put_chunk]
  have hrem : ∀ u : world_chunks, ((u.remove_chunk cx cz save).get_chunk cx cz).1 = none := by
    intro u
    rw [world_chunks.get_chunk_of_empty_slot _ cx cz rfl]
    simp [world_chunks.remove_chunk]
  exact ⟨hput t, fun x z => hput _, hrem t, fun x z => hrem _⟩

/-! ### The update queue -/

theorem update_queue.run_flatten (steps : List queue_step) :
    ∀ q : update_queue,
      (q.run steps).1.flatten ++ (q.run steps).2.updates =
        q.updates ++ queue_step.enqueued steps := by
  induction steps with
  | nil => intro q; simp [update_queue.run, queue_step.enqueued]
  | cons st rest ih =>
    intro q
    cases st with
    | enqueue u =>
      simp only [update_queue.run, queue_step.enqueued]
      rw [ih (q.queue_update u)]
      simp [update_queue.queue_update]
    | flush =>
      simp only [update_queue.run, queue_step.enqueued, List.flatten_cons, List.append_assoc]
      rw [ih q.flush.2]
      simp [update_queue.flush]

theorem update_queue.run_append_flush (steps : List queue_step) :
    ∀ q : update_queue,
      (q.run (steps ++ [queue_step.flush])).1 = (q.run steps).1 ++ [(q.run steps).2.updates] ∧
      (q.run (steps ++ [queue_step.flush])).2.updates = [] := by
  induction steps with
  | nil => intro q; simp [update_queue.run, update_queue.flush]
  | cons st rest ih =>
    intro q
    cases st with
    | enqueue u =>
      simp only [List.cons_append, update_queue.run]
      exact ih (q.queue_update u)
    | flush =>
      simp only [List.cons_append, update_queue.run]
      exact ⟨congrArg (fun l => q.flush.1 :: l) (ih q.flush.2).1, (ih q.flush.2).2⟩

/-- C5: for every sequence of enqueue and flush steps, the results of the
flushes, one after the other, followed by what is still queued, are exactly
the records that were queued at the start followed by the enqueued records in
the order of their enqueueing; so a record comes out of one flush only, none
is lost, and the order is kept within and across flushes. After one more
flush nothing is queued and the flush results hold every record. -/
theorem update_queue_exactly_once (q : update_queue) (steps : List queue_step) :
    (q.run steps).1.flatten ++ (q.run steps).2.updates =
      q.updates ++ queue_step.enqueued steps ∧
    (q.run (steps ++ [queue_step.flush])).1.flatten =
      q.updates ++ queue_step.enqueued steps ∧
    (q.run (steps ++ [queue_step.flush])).2.updates = [] := by
  refine ⟨update_queue.run_flatten steps q, ?_, (update_queue.run_append_flush steps q).2⟩
  rw [(update_queue.run_append_flush steps q).1, ← update_queue.run_flatten steps q]
  simp

/-! ### The chunk generator -/

theorem gen_flags.and_or_two_pow (n i j : Nat) (h : i ≠ j) :
    (n ||| 2 ^ i) &&& 2 ^ j = n &&& 2 ^ j := by
  apply Nat.eq_of_testBit_eq
  intro k
  simp only [Nat.testBit_and, Nat.testBit_or, Nat.testBit_two_pow]
  by_cases hk : j = k
  · subst hk
    simp [h]
  · simp [hk]

theorem gen_flags.or_and_two_pow_self (n i : Nat) : (n ||| 2 ^ i) &&& 2 ^ i = 2 ^ i := by
  apply Nat.eq_of_testBit_eq
  intro k
  simp only [Nat.testBit_and, Nat.testBit_or, Nat.testBit_two_pow]
  by_cases hk : i = k <;> simp [hk]

theorem gen_flags.test_set_other (flags i j : Nat) (h : i ≠ j) :
    gen_flags.test (gen_flags.set flags (2 ^ i)) (2 ^ j) = gen_flags.test flags (2 ^ j) := by
  unfold gen_flags.test gen_flags.set
  rw [gen_flags.and_or_two_pow flags i j h]

theorem gen_flags.test_set_self (flags i : Nat) :
    gen_flags.test (gen_flags.set flags (2 ^ i)) (2 ^ i) = true := by
  unfold gen_flags.test gen_flags.set
  rw [gen_flags.or_and_two_pow_self flags i]
  simp

theorem gen_flags.test_set_aborted (flags : Nat) :
    gen_flags.test (gen_flags.set flags GFL_ABORTED) GFL_ABORTED = true :=
  gen_flags.test_set_self flags 0

theorem gen_flags.test_noabort_set_aborted (flags : Nat) :
    gen_flags.test (gen_flags.set flags GFL_ABORTED) GFL_NOABORT =
      gen_flags.test flags GFL_NOABORT :=
  gen_flags.test_set_other flags 0 2 (by decide)

theorem generator_queue.pending_cons (q : generator_queue) (qs : List generator_queue) :
    generator_queue.pending (q :: qs) = q.requests ++ generator_queue.pending qs := by
  simp [generator_queue.pending]

theorem generator_queue.pending_append (qs1 qs2 : List generator_queue) :
    generator_queue.pending (qs1 ++ qs2) =
      generator_queue.pending qs1 ++ generator_queue.pending qs2 := by
  simp [generator_queue.pending]

theorem generator_queue.next_request_none (qs : List generator_queue) :
    ∀ skipped : List generator_queue, generator_queue.next_request skipped qs = none →
      generator_queue.pending qs = [] := by
  induction qs with
  | nil => intro _ _; rfl
  | cons q rest ih =>
    intro skipped h
    unfold generator_queue.next_request at h
    cases hq : q.requests with
    | nil =>
      rw [hq] at h
      rw [generator_queue.pending_cons, hq, ih _ h]
      rfl
    | cons r rs =>
      rw [hq] at h
      simp at h

/-- The request the worker takes next is one of the queued requests, and the
other queued requests are those queued afterwards. -/
theorem generator_queue.next_request_perm (qs : List generator_queue) :
    ∀ (skipped qs1 : List generator_queue) (r : gen_request),
      generator_queue.next_request skipped qs = some (r, qs1) →
      (generator_queue.pending (skipped ++ qs)).Perm (r :: generator_queue.pending qs1) := by
  induction qs with
  | nil =>
    intro skipped qs1 r h
    simp [generator_queue.next_request] at h
  | cons q rest ih =>
    intro skipped qs1 r h
    unfold generator_queue.next_request at h
    cases hq : q.requests with
    | nil =>
      rw [hq] at h
      have h1 := ih (skipped ++ [q]) qs1 r h
      rw [List.append_assoc] at h1
      exact h1
    | cons r0 rs =>
      rw [hq] at h
      simp only [Option.some.injEq, Prod.mk.injEq] at h
      obtain ⟨hr, hqs⟩ := h
      subst hr
      subst hqs
      simp only [generator_queue.pending_append, generator_queue.pending_cons, hq]
      have hnil : generator_queue.pending [] = [] := rfl
      rw [hnil, List.append_nil]
      refine List.Perm.trans List.perm_middle (List.Perm.cons r0 ?_)
      show (generator_queue.pending skipped ++ (rs ++ generator_queue.pending rest)).Perm
        (generator_queue.pending rest ++ generator_queue.pending skipped ++ rs)
      rw [← List.append_assoc, List.append_assoc (generator_queue.pending rest)]
      exact List.perm_append_comm

theorem generator_queue.pending_cancel (w : world) (qs : List generator_queue) :
    generator_queue.pending
        (qs.map (fun q => { q with requests := q.requests.map (gen_request.cancel w) })) =
      (generator_queue.pending qs).map (gen_request.cancel w) := by
  induction qs with
  | nil => rfl
  | cons q rest ih =>
    simp only [List.map_cons, generator_queue.pending_cons, ih, List.map_append]

theorem generator_queue.mem_pending_push (qs : List generator_queue) (r x : gen_request) :
    x ∈ generator_queue.pending (generator_queue.push qs r) ↔
      x ∈ generator_queue.pending qs ∨ x = r := by
  induction qs with
  | nil => simp [generator_queue.push, generator_queue.pending]
  | cons q rest ih =>
    unfold generator_queue.push
    split
    · simp only [generator_queue.pending_cons, List.mem_append, List.mem_singleton]
      tauto
    · simp only [generator_queue.pending_cons, List.mem_append, ih]
      tauto

theorem chunk_generator.work_of_none (gen : terrain) (g : chunk_generator)
    (h : generator_queue.next_request [] g.queues = none) : g.work gen = g := by
  simp only [chunk_generator.work, h]

theorem chunk_generator.work_of_some (gen : terrain) (g : chunk_generator) (r : gen_request)
    (qs : List generator_queue) (h : generator_queue.next_request [] g.queues = some (r, qs)) :
    g.work gen =
      { g with
        queues := qs
        delivered := g.delivered ++ (chunk_generator.serve gen r).toList } := by
  simp only [chunk_generator.work, h]

theorem gen_request.cancel_w (w : world) (r : gen_request) : (r.cancel w).w = r.w := by
  unfold gen_request.cancel
  split <;> rfl

theorem gen_request.cancel_test_noabort (w : world) (r : gen_request) :
    gen_flags.test (r.cancel w).flags GFL_NOABORT = gen_flags.test r.flags GFL_NOABORT := by
  unfold gen_request.cancel
  split
  · exact gen_flags.test_noabort_set_aborted r.flags
  · rfl

theorem gen_request.cancel_of_noabort (w : world) (r : gen_request)
    (h : gen_flags.test r.flags GFL_NOABORT = true) : r.cancel w = r := by
  unfold gen_request.cancel
  rw [h]
  simp

theorem gen_request.cancel_keeps_aborted (w : world) (r : gen_request)
    (h : gen_flags.test r.flags GFL_ABORTED = true) :
    gen_flags.test (r.cancel w).flags GFL_ABORTED = true := by
  unfold gen_request.cancel
  split
  · exact gen_flags.test_set_aborted r.flags
  · exact h

theorem chunk_generator.respond_w (gen : terrain) (r : gen_request) :
    (chunk_generator.respond gen r).w = r.w := by
  unfold chunk_generator.respond
  split <;> rfl

theorem chunk_generator.respond_flags (gen : terrain) (r : gen_request)
    (h : (chunk_generator.respond gen r).ch ≠ none) :
    (chunk_generator.respond gen r).flags = r.flags := by
  unfold chunk_generator.respond at h ⊢
  split
  · rfl
  · rename_i hg
    rw [hg] at h
    exact absurd rfl h

theorem chunk_generator.respond_of_some (gen : terrain) (r : gen_request) (c : chunk)
    (h : gen r.w r.cx r.cz = some c) :
    chunk_generator.respond gen r = ⟨r.w, r.cx, r.cz, some c, r.flags, r.extra, r.id⟩ := by
  unfold chunk_generator.respond
  rw [h]

theorem chunk_generator.serve_of_noabort (gen : terrain) (r : gen_request)
    (hno : gen_flags.test r.flags GFL_NOABORT = true)
    (hnd : gen_flags.test r.flags GFL_NODELIVER = false) :
    chunk_generator.serve gen r = some (chunk_generator.respond gen r) := by
  simp [chunk_generator.serve, hno, hnd]

theorem chunk_generator.serve_of_cancelled (gen : terrain) (w : world) (r : gen_request)
    (hw : r.w = w) (hno : gen_flags.test r.flags GFL_NOABORT = false) :
    chunk_generator.serve gen (r.cancel w) = none := by
  have h1 : gen_flags.test (r.cancel w).flags GFL_ABORTED = true := by
    unfold gen_request.cancel
    rw [if_pos ⟨hw, hno⟩]
    exact gen_flags.test_set_aborted r.flags
  have h2 : gen_flags.test (r.cancel w).flags GFL_NOABORT = false := by
    rw [gen_request.cancel_test_noabort]
    exact hno
  simp [chunk_generator.serve, h1, h2]

theorem chunk_generator.delivered_mono (gen : terrain) (n : Nat) :
    ∀ (g : chunk_generator) (resp : gen_response), resp ∈ g.delivered →
      resp ∈ (g.run gen (List.replicate n gen_op.work)).delivered := by
  induction n with
  | zero => intro g resp h; exact h
  | succ n ih =>
    intro g resp h
    rw [List.replicate_succ]
    apply ih (g.work gen) resp
    cases hn : generator_queue.next_request [] g.queues with
    | none => rw [chunk_generator.work_of_none gen g hn]; exact h
    | some p =>
      obtain ⟨r, qs⟩ := p
      rw [chunk_generator.work_of_some gen g r qs hn]
      exact List.mem_append_left _ h

/-- Progress: as many turns of the worker as there are queued requests serve
every queued request. -/
theorem chunk_generator.run_serves (gen : terrain) (n : Nat) :
    ∀ g : chunk_generator, (generator_queue.pending g.queues).length ≤ n →
      ∀ r ∈ generator_queue.pending g.queues, ∀ resp,
        chunk_generator.serve gen r = some resp →
        resp ∈ (g.run gen (List.replicate n gen_op.work)).delivered := by
  induction n with
  | zero =>
    intro g hlen r hr
    have hnil : generator_queue.pending g.queues = [] :=
      List.eq_nil_of_length_eq_zero (Nat.le_zero.1 hlen)
    rw [hnil] at hr
    exact absurd hr (List.not_mem_nil r)
  | succ n ih =>
    intro g hlen r hr resp hresp
    rw [List.replicate_succ]
    show resp ∈ ((g.work gen).run gen (List.replicate n gen_op.work)).delivered
    cases hn : generator_queue.next_request [] g.queues with
    | none =>
      rw [generator_queue.next_request_none g.queues [] hn] at hr
      exact absurd hr (List.not_mem_nil r)
    | some p =>
      obtain ⟨r0, qs⟩ := p
      have hp := generator_queue.next_request_perm g.queues [] qs r0 hn
      rw [List.nil_append] at hp
      rw [chunk_generator.work_of_some gen g r0 qs hn]
      rcases List.mem_cons.1 (hp.mem_iff.1 hr) with h1 | h1
      · subst h1
        apply chunk_generator.delivered_mono
        rw [hresp]
        simp
      · apply ih _ _ r h1 resp hresp
        have hl := hp.length_eq
        simp only [List.length_cons] at hl
        show (generator_queue.pending qs).length ≤ n
        omega

theorem gen_request.cancel_id (w : world) (r : gen_request) : (r.cancel w).id = r.id := by
  unfold gen_request.cancel
  split <;> rfl

theorem gen_request.cancel_marks (w : world) (r : gen_request) (hw : r.w = w)
    (hno : gen_flags.test r.flags GFL_NOABORT = false) :
    gen_flags.test (r.cancel w).flags GFL_ABORTED = true ∧
      gen_flags.test (r.cancel w).flags GFL_NOABORT = false := by
  refine ⟨?_, ?_⟩
  · unfold gen_request.cancel
    rw [if_pos ⟨hw, hno⟩]
    exact gen_flags.test_set_aborted r.flags
  · rw [gen_request.cancel_test_noabort]
    exact hno

theorem generator_queue.pending_push_perm (qs : List generator_queue) (r : gen_request) :
    (generator_queue.pending (generator_queue.push qs r)).Perm
      (r :: generator_queue.pending qs) := by
  induction qs with
  | nil => simp [generator_queue.push, generator_queue.pending]
  | cons q rest ih =>
    unfold generator_queue.push
    split
    · simp only [generator_queue.pending_cons]
      have h1 : (q.requests ++ [r] ++ generator_queue.pending rest).Perm
          ([r] ++ (q.requests ++ generator_queue.pending rest)) := by
        rw [List.append_assoc]
        exact (List.perm_append_comm_assoc q.requests [r] (generator_queue.pending rest))
      exact h1
    · simp only [generator_queue.pending_cons]
      have h1 : (q.requests ++ generator_queue.pending (generator_queue.push rest r)).Perm
          (q.requests ++ r :: generator_queue.pending rest) :=
        List.Perm.append_left _ ih
      exact h1.trans List.perm_middle

theorem chunk_generator.respond_id (gen : terrain) (r : gen_request) :
    (chunk_generator.respond gen r).id = r.id := by
  unfold chunk_generator.respond
  split <;> rfl

theorem chunk_generator.respond_cx (gen : terrain) (r : gen_request) :
    (chunk_generator.respond gen r).cx = r.cx := by
  unfold chunk_generator.respond
  split <;> rfl

theorem chunk_generator.respond_cz (gen : terrain) (r : gen_request) :
    (chunk_generator.respond gen r).cz = r.cz := by
  unfold chunk_generator.respond
  split <;> rfl

theorem chunk_generator.serve_eq_respond (gen : terrain) (r : gen_request)
    (resp : gen_response) (h : chunk_generator.serve gen r = some resp) :
    resp = chunk_generator.respond gen r := by
  unfold chunk_generator.serve at h
  split at h
  · simp at h
  · split at h
    · simp at h
    · simpa using h.symm

theorem chunk_generator.serve_of_marked (gen : terrain) (r : gen_request)
    (hab : gen_flags.test r.flags GFL_ABORTED = true)
    (hno : gen_flags.test r.flags GFL_NOABORT = false) :
    chunk_generator.serve gen r = none := by
  simp [chunk_generator.serve, hab, hno]

theorem chunk_generator.idle_wf : chunk_generator.idle.wf := by
  decide

/-- Every step keeps the numbering of the requests in order. -/
theorem chunk_generator.wf_apply (gen : terrain) (g : chunk_generator) (op : gen_op)
    (h : g.wf) : (op.apply gen g).wf := by
  obtain ⟨h1, h2, h3, h4⟩ := h
  cases op with
  | work =>
    simp only [gen_op.apply]
    cases hn : generator_queue.next_request [] g.queues with
    | none =>
      rw [chunk_generator.work_of_none gen g hn]
      exact ⟨h1, h2, h3, h4⟩
    | some p =>
      obtain ⟨r0, qs⟩ := p
      rw [chunk_generator.work_of_some gen g r0 qs hn]
      have hp := generator_queue.next_request_perm g.queues [] qs r0 hn
      rw [List.nil_append] at hp
      have hnd : ((r0 :: generator_queue.pending qs).map (fun r => r.id)).Nodup :=
        ((hp.map (fun r => r.id)).nodup_iff).1 h1
      rw [List.map_cons, List.nodup_cons] at hnd
      have hsub : ∀ r ∈ generator_queue.pending qs, r ∈ generator_queue.pending g.queues :=
        fun r hr => hp.mem_iff.2 (List.mem_cons_of_mem _ hr)
      have hr0 : r0 ∈ generator_queue.pending g.queues :=
        hp.mem_iff.2 (List.mem_cons_self _ _)
      refine ⟨hnd.2, fun r hr => h2 r (hsub r hr), ?_, ?_⟩
      · intro resp hresp
        rcases List.mem_append.1 hresp with hm | hm
        · exact h3 resp hm
        · have he := chunk_generator.serve_eq_respond gen r0 resp (by simpa using hm)
          rw [he, chunk_generator.respond_id]
          exact h2 r0 hr0
      · intro resp hresp r hr
        rcases List.mem_append.1 hresp with hm | hm
        · exact h4 resp hm r (hsub r hr)
        · have he := chunk_generator.serve_eq_respond gen r0 resp (by simpa using hm)
          rw [he, chunk_generator.respond_id]
          intro heq
          exact hnd.1 (List.mem_map.2 ⟨r, hr, heq.symm⟩)
  | request w cx cz pid flags extra =>
    simp only [gen_op.apply, chunk_generator.request]
    have hp := generator_queue.pending_push_perm g.queues
      ⟨pid, w, cx, cz, flags, extra, g.next_id⟩
    refine ⟨?_, ?_, ?_, ?_⟩
    · refine ((hp.map (fun r => r.id)).nodup_iff).2 ?_
      rw [List.map_cons, List.nodup_cons]
      refine ⟨?_, h1⟩
      intro hm
      obtain ⟨r, hr, heq⟩ := List.mem_map.1 hm
      have := h2 r hr
      simp only at heq
      omega
    · intro r hr
      rcases List.mem_cons.1 (hp.mem_iff.1 hr) with hm | hm
      · subst hm
        exact Nat.lt_succ_self _
      · exact Nat.lt_succ_of_lt (h2 r hm)
    · intro resp hresp
      exact Nat.lt_succ_of_lt (h3 resp hresp)
    · intro resp hresp r hr
      rcases List.mem_cons.1 (hp.mem_iff.1 hr) with hm | hm
      · subst hm
        exact Nat.ne_of_lt (h3 resp hresp)
      · exact h4 resp hresp r hm
  | cancel w1 =>
    simp only [gen_op.apply, chunk_generator.cancel_requests]
    have hids : (generator_queue.pending
        (List.map (fun q => { q with requests := q.requests.map (gen_request.cancel w1) })
          g.queues)).map (fun r => r.id) =
        (generator_queue.pending g.queues).map (fun r => r.id) := by
      rw [generator_queue.pending_cancel, List.map_map]
      apply List.map_congr_left
      intro r _
      exact gen_request.cancel_id w1 r
    refine ⟨by rw [hids]; exact h1, ?_, h3, ?_⟩
    · intro r hr
      rw [generator_queue.pending_cancel, List.mem_map] at hr
      obtain ⟨r1, hr1, he⟩ := hr
      rw [← he, gen_request.cancel_id]
      exact h2 r1 hr1
    · intro resp hresp r hr
      rw [generator_queue.pending_cancel, List.mem_map] at hr
      obtain ⟨r1, hr1, he⟩ := hr
      rw [← he, gen_request.cancel_id]
      exact h4 resp hresp r1 hr1

/-- Every generator that is reached from the idle one has the numbering of
its requests in order. -/
theorem chunk_generator.wf_run (gen : terrain) (ops : List gen_op) :
    ∀ g : chunk_generator, g.wf → (g.run gen ops).wf := by
  induction ops with
  | nil => intro g h; exact h
  | cons op rest ih =>
    intro g h
    exact ih (op.apply gen g) (chunk_generator.wf_apply gen g op h)

/-- One step keeps a request out of the responses: when every queued request
with the number `i` is flagged `GFL_ABORTED` and does not carry
`GFL_NOABORT`, the number has been given out and no response has it, the
same holds after any step. -/
theorem chunk_generator.marked_apply (gen : terrain) (g : chunk_generator) (op : gen_op)
    (i : Nat)
    (hq : ∀ x ∈ generator_queue.pending g.queues, x.id = i →
      gen_flags.test x.flags GFL_ABORTED = true ∧ gen_flags.test x.flags GFL_NOABORT = false)
    (hn : i < g.next_id) (hd : ∀ resp ∈ g.delivered, resp.id ≠ i) :
    (∀ x ∈ generator_queue.pending (op.apply gen g).queues, x.id = i →
      gen_flags.test x.flags GFL_ABORTED = true ∧ gen_flags.test x.flags GFL_NOABORT = false) ∧
    i < (op.apply gen g).next_id ∧ ∀ resp ∈ (op.apply gen g).delivered, resp.id ≠ i := by
  cases op with
  | work =>
    simp only [gen_op.apply]
    cases hnx : generator_queue.next_request [] g.queues with
    | none =>
      rw [chunk_generator.work_of_none gen g hnx]
      exact ⟨hq, hn, hd⟩
    | some p =>
      obtain ⟨r0, qs⟩ := p
      rw [chunk_generator.work_of_some gen g r0 qs hnx]
      have hp := generator_queue.next_request_perm g.queues [] qs r0 hnx
      rw [List.nil_append] at hp
      refine ⟨fun x hx => hq x (hp.mem_iff.2 (List.mem_cons_of_mem _ hx)), hn, ?_⟩
      intro resp hresp
      rcases List.mem_append.1 hresp with hm | hm
      · exact hd resp hm
      · have hs : chunk_generator.serve gen r0 = some resp := by simpa using hm
        have he := chunk_generator.serve_eq_respond gen r0 resp hs
        intro heq
        rw [he, chunk_generator.respond_id] at heq
        have hmark := hq r0 (hp.mem_iff.2 (List.mem_cons_self _ _)) heq
        rw [chunk_generator.serve_of_marked gen r0 hmark.1 hmark.2] at hs
        exact absurd hs (by simp)
  | request w cx cz pid flags extra =>
    simp only [gen_op.apply, chunk_generator.request]
    refine ⟨?_, Nat.lt_succ_of_lt hn, hd⟩
    intro x hx hxi
    rcases (generator_queue.mem_pending_push g.queues _ x).1 hx with hm | hm
    · exact hq x hm hxi
    · subst hm
      simp only at hxi
      omega
  | cancel w1 =>
    simp only [gen_op.apply, chunk_generator.cancel_requests]
    refine ⟨?_, hn, hd⟩
    intro x hx hxi
    rw [generator_queue.pending_cancel, List.mem_map] at hx
    obtain ⟨r1, hr1, he⟩ := hx
    subst he
    rw [gen_request.cancel_id] at hxi
    have hmark := hq r1 hr1 hxi
    refine ⟨gen_request.cancel_keeps_aborted w1 r1 hmark.1, ?_⟩
    rw [gen_request.cancel_test_noabort]
    exact hmark.2

/-- Safety: a request that is flagged `GFL_ABORTED` without `GFL_NOABORT`
while it is queued is answered by no response, whatever steps follow. -/
theorem chunk_generator.marked_run (gen : terrain) (i : Nat) (ops : List gen_op) :
    ∀ g : chunk_generator,
      (∀ x ∈ generator_queue.pending g.queues, x.id = i →
        gen_flags.test x.flags GFL_ABORTED = true ∧
          gen_flags.test x.flags GFL_NOABORT = false) →
      i < g.next_id → (∀ resp ∈ g.delivered, resp.id ≠ i) →
      ∀ resp ∈ (g.run gen ops).delivered, resp.id ≠ i := by
  induction ops with
  | nil => intro g _ _ hd; exact hd
  | cons op rest ih =>
    intro g hq hn hd
    obtain ⟨h1, h2, h3⟩ := chunk_generator.marked_apply gen g op i hq hn hd
    exact ih (op.apply gen g) h1 h2 h3

/-- Cancelling marks the queued requests of the world: after
`cancel_requests (w)` on a generator whose numbering is in order, every
queued request with the number of a request `r` for `w` that was queued
without `GFL_NOABORT` is flagged `GFL_ABORTED` and does not carry
`GFL_NOABORT`. -/
theorem chunk_generator.cancel_requests_marks (g : chunk_generator) (w : world) (hwf : g.wf)
    (r : gen_request) (hr : r ∈ generator_queue.pending g.queues) (hw : r.w = w)
    (hno : gen_flags.test r.flags GFL_NOABORT = false) :
    ∀ x ∈ generator_queue.pending (g.cancel_requests w).queues, x.id = r.id →
      gen_flags.test x.flags GFL_ABORTED = true ∧
        gen_flags.test x.flags GFL_NOABORT = false := by
  intro x hx hxi
  simp only [chunk_generator.cancel_requests] at hx
  rw [generator_queue.pending_cancel, List.mem_map] at hx
  obtain ⟨r1, hr1, he⟩ := hx
  subst he
  rw [gen_request.cancel_id] at hxi
  have heq : r1 = r := List.inj_on_of_nodup_map hwf.1 hr1 hr hxi
  subst heq
  exact gen_request.cancel_marks w r1 hw hno

/-- A request with `GFL_NOABORT` and without `GFL_NODELIVER` is never lost:
after any step it is still queued or its response has been handed over. -/
theorem chunk_generator.kept_apply (gen : terrain) (g : chunk_generator) (op : gen_op)
    (r : gen_request) (hno : gen_flags.test r.flags GFL_NOABORT = true)
    (hnd : gen_flags.test r.flags GFL_NODELIVER = false)
    (h : r ∈ generator_queue.pending g.queues ∨
      chunk_generator.respond gen r ∈ g.delivered) :
    r ∈ generator_queue.pending (op.apply gen g).queues ∨
      chunk_generator.respond gen r ∈ (op.apply gen g).delivered := by
  cases op with
  | work =>
    simp only [gen_op.apply]
    cases hnx : generator_queue.next_request [] g.queues with
    | none =>
      rw [chunk_generator.work_of_none gen g hnx]
      exact h
    | some p =>
      obtain ⟨r0, qs⟩ := p
      rw [chunk_generator.work_of_some gen g r0 qs hnx]
      have hp := generator_queue.next_request_perm g.queues [] qs r0 hnx
      rw [List.nil_append] at hp
      rcases h with h | h
      · rcases List.mem_cons.1 (hp.mem_iff.1 h) with hm | hm
        · subst hm
          right
          show chunk_generator.respond gen r ∈
            g.delivered ++ (chunk_generator.serve gen r).toList
          rw [chunk_generator.serve_of_noabort gen r hno hnd]
          simp
        · exact Or.inl hm
      · exact Or.inr (List.mem_append_left _ h)
  | request w cx cz pid flags extra =>
    simp only [gen_op.apply, chunk_generator.request]
    rcases h with h | h
    · exact Or.inl ((generator_queue.mem_pending_push g.queues _ r).2 (Or.inl h))
    · exact Or.inr h
  | cancel w1 =>
    simp only [gen_op.apply, chunk_generator.cancel_requests]
    rcases h with h | h
    · left
      rw [generator_queue.pending_cancel, List.mem_map]
      exact ⟨r, h, gen_request.cancel_of_noabort w1 r hno⟩
    · exact Or.inr h

theorem chunk_generator.kept_run (gen : terrain) (r : gen_request)
    (hno : gen_flags.test r.flags GFL_NOABORT = true)
    (hnd : gen_flags.test r.flags GFL_NODELIVER = false) (ops : List gen_op) :
    ∀ g : chunk_generator,
      (r ∈ generator_queue.pending g.queues ∨ chunk_generator.respond gen r ∈ g.delivered) →
      (r ∈ generator_queue.pending (g.run gen ops).queues ∨
        chunk_generator.respond gen r ∈ (g.run gen ops).delivered) := by
  induction ops with
  | nil => intro g h; exact h
  | cons op rest ih =>
    intro g h
    exact ih (op.apply gen g) (chunk_generator.kept_apply gen g op r hno hnd h)

/-- Liveness: a queued request with `GFL_NOABORT` and without
`GFL_NODELIVER` is answered, whatever steps come in between, once the worker
has had as many turns as there are queued requests. -/
theorem chunk_generator.noabort_delivered (gen : terrain) (g : chunk_generator)
    (r : gen_request) (hr : r ∈ generator_queue.pending g.queues)
    (hno : gen_flags.test r.flags GFL_NOABORT = true)
    (hnd : gen_flags.test r.flags GFL_NODELIVER = false) (ops : List gen_op) (n : Nat)
    (hn : (generator_queue.pending (g.run gen ops).queues).length ≤ n) :
    chunk_generator.respond gen r ∈
      ((g.run gen ops).run gen (List.replicate n gen_op.work)).delivered := by
  rcases chunk_generator.kept_run gen r hno hnd ops g (Or.inl hr) with h | h
  · exact chunk_generator.run_serves gen n (g.run gen ops) hn r h _
      (chunk_generator.serve_of_noabort gen r hno hnd)
  · exact chunk_generator.delivered_mono gen n (g.run gen ops) _ h

/-- C6: let the generator be in any state it gets into from the idle one, and
let `cancel_requests (w)` be called. A request for `w` that is queued at the
call and was made without `GFL_NOABORT` is then answered by no response at
all, aborted or not, whatever steps follow (turns of the worker,
cancellations, requests for any world, `w` among them): no response handed
over carries its number, and a response carries the number, the world and
the coordinates of the request it answers; the request is skipped when its
turn comes. A queued request with `GFL_NOABORT` (and without
`GFL_NODELIVER`, which asks for the chunk to be dropped) is answered,
whatever steps follow the call, once the worker has had as many turns as
there are queued requests, with the generated chunk and the flags of the
request when the generator does not fail. The three flags are the bits 0, 1
and 2, and setting one of them in a flag word sets it and leaves the test of
each of the other two as it was. -/
theorem cancelled_requests_stay_aborted (gen : terrain) (pre : List gen_op) (w : world) :
    (∀ r ∈ generator_queue.pending (chunk_generator.idle.run gen pre).queues, r.w = w →
      gen_flags.test r.flags GFL_NOABORT = false →
      ∀ ops : List gen_op,
        ∀ resp ∈
          (((chunk_generator.idle.run gen pre).cancel_requests w).run gen ops).delivered,
          resp.id ≠ r.id) ∧
    (∀ r : gen_request,
      (chunk_generator.respond gen r).id = r.id ∧ (chunk_generator.respond gen r).w = r.w ∧
      (chunk_generator.respond gen r).cx = r.cx ∧ (chunk_generator.respond gen r).cz = r.cz) ∧
    (∀ r : gen_request, r.w = w → gen_flags.test r.flags GFL_NOABORT = false →
      chunk_generator.serve gen (r.cancel w) = none) ∧
    (∀ r ∈ generator_queue.pending (chunk_generator.idle.run gen pre).queues,
      gen_flags.test r.flags GFL_NOABORT = true →
      gen_flags.test r.flags GFL_NODELIVER = false →
      ∀ (ops : List gen_op) (n : Nat),
        (generator_queue.pending
          (((chunk_generator.idle.run gen pre).cancel_requests w).run gen ops).queues).length
            ≤ n →
        chunk_generator.respond gen r ∈
          ((((chunk_generator.idle.run gen pre).cancel_requests w).run gen ops).run gen
            (List.replicate n gen_op.work)).delivered ∧
        (∀ c, gen r.w r.cx r.cz = some c →
          chunk_generator.respond gen r =
            ⟨r.w, r.cx, r.cz, some c, r.flags, r.extra, r.id⟩)) ∧
    (∀ r ∈ generator_queue.pending (chunk_generator.idle.run gen pre).queues,
      r.flags = GFL_NOABORT →
      ∀ (ops : List gen_op) (n : Nat),
        (generator_queue.pending
          (((chunk_generator.idle.run gen pre).cancel_requests w).run gen ops).queues).length
            ≤ n →
        chunk_generator.respond gen r ∈
          ((((chunk_generator.idle.run gen pre).cancel_requests w).run gen ops).run gen
            (List.replicate n gen_op.work)).delivered) ∧
    (GFL_ABORTED = 2 ^ 0 ∧ GFL_NODELIVER = 2 ^ 1 ∧ GFL_NOABORT = 2 ^ 2) ∧
    (∀ flags : Nat,
      gen_flags.test (gen_flags.set flags GFL_ABORTED) GFL_ABORTED = true ∧
      gen_flags.test (gen_flags.set flags GFL_NODELIVER) GFL_NODELIVER = true ∧
      gen_flags.test (gen_flags.set flags GFL_NOABORT) GFL_NOABORT = true ∧
      gen_flags.test (gen_flags.set flags GFL_ABORTED) GFL_NODELIVER =
        gen_flags.test flags GFL_NODELIVER ∧
      gen_flags.test (gen_flags.set flags GFL_ABORTED) GFL_NOABORT =
        gen_flags.test flags GFL_NOABORT ∧
      gen_flags.test (gen_flags.set flags GFL_NODELIVER) GFL_ABORTED =
        gen_flags.test flags GFL_ABORTED ∧
      gen_flags.test (gen_flags.set flags GFL_NODELIVER) GFL_NOABORT =
        gen_flags.test flags GFL_NOABORT ∧
      gen_flags.test (gen_flags.set flags GFL_NOABORT) GFL_ABORTED =
        gen_flags.test flags GFL_ABORTED ∧
      gen_flags.test (gen_flags.set flags GFL_NOABORT) GFL_NODELIVER =
        gen_flags.test flags GFL_NODELIVER) := by
  have hwf : (chunk_generator.idle.run gen pre).wf :=
    chunk_generator.wf_run gen pre chunk_generator.idle chunk_generator.idle_wf
  have hlive : ∀ r ∈ generator_queue.pending (chunk_generator.idle.run gen pre).queues,
      gen_flags.test r.flags GFL_NOABORT = true →
      gen_flags.test r.flags GFL_NODELIVER = false →
      ∀ (ops : List gen_op) (n : Nat),
        (generator_queue.pending
          (((chunk_generator.idle.run gen pre).cancel_requests w).run gen ops).queues).length
            ≤ n →
        chunk_generator.respond gen r ∈
          ((((chunk_generator.idle.run gen pre).cancel_requests w).run gen ops).run gen
            (List.replicate n gen_op.work)).delivered := by
    intro r hr hno hnd ops n hn
    exact chunk_generator.noabort_delivered gen (chunk_generator.idle.run gen pre) r hr hno hnd
      (gen_op.cancel w :: ops) n hn
  refine ⟨?_, ?_, ?_, ?_, ?_, ⟨rfl, rfl, rfl⟩, ?_⟩
  · intro r hr hw hno ops
    apply chunk_generator.marked_run gen r.id ops
      ((chunk_generator.idle.run gen pre).cancel_requests w)
    · exact chunk_generator.cancel_requests_marks (chunk_generator.idle.run gen pre) w hwf r hr
        hw hno
    · exact hwf.2.1 r hr
    · intro resp hresp
      exact hwf.2.2.2 resp hresp r hr
  · intro r
    exact ⟨chunk_generator.respond_id gen r, chunk_generator.respond_w gen r,
      chunk_generator.respond_cx gen r, chunk_generator.respond_cz gen r⟩
  · intro r hw hno
    exact chunk_generator.serve_of_cancelled gen w r hw hno
  · intro r hr hno hnd ops n hn
    exact ⟨hlive r hr hno hnd ops n hn,
      fun c hc => chunk_generator.respond_of_some gen r c hc⟩
  · intro r hr hfl ops n hn
    exact hlive r hr (by rw [hfl]; decide) (by rw [hfl]; decide) ops n hn
  · intro flags
    exact ⟨gen_flags.test_set_self flags 0, gen_flags.test_set_self flags 1,
      gen_flags.test_set_self flags 2,
      gen_flags.test_set_other flags 0 1 (by decide),
      gen_flags.test_set_other flags 0 2 (by decide),
      gen_flags.test_set_other flags 1 0 (by decide),
      gen_flags.test_set_other flags 1 2 (by decide),
      gen_flags.test_set_other flags 2 0 (by decide),
      gen_flags.test_set_other flags 2 1 (by decide)⟩

/-- C6, witness: the chunks (5, 5) and (6, 6) of "main" are requested, the
second with `GFL_NOABORT`, and the requests for "main" are cancelled. When
the chunk (6, 6) of "main" is then requested once more and the worker has
three turns, no response answers the first request, whose number is 0: the
responses handed over are those for the two requests for (6, 6). Without the
new request, two turns of the worker hand over the response for (6, 6) with
its chunk. -/
theorem cancelled_requests_stay_aborted_witness :
    (∀ resp ∈
      (((chunk_generator.idle.run terrain.flat gen_op.two_requests).cancel_requests
        ⟨1, "main"⟩).run terrain.flat
          [gen_op.request ⟨1, "main"⟩ 6 6 10 GFL_NONE 0, gen_op.work, gen_op.work,
            gen_op.work]).delivered,
      resp.id ≠ 0) ∧
    (((chunk_generator.idle.run terrain.flat gen_op.two_requests).cancel_requests
        ⟨1, "main"⟩).run terrain.flat
          [gen_op.request ⟨1, "main"⟩ 6 6 10 GFL_NONE 0, gen_op.work, gen_op.work,
            gen_op.work]).delivered =
      [⟨⟨1, "main"⟩, 6, 6, some ⟨100⟩, GFL_NOABORT, 0, 1⟩,
       ⟨⟨1, "main"⟩, 6, 6, some ⟨100⟩, GFL_NONE, 0, 2⟩] ∧
    chunk_generator.respond terrain.flat ⟨10, ⟨1, "main"⟩, 6, 6, GFL_NOABORT, 0, 1⟩ ∈
      ((((chunk_generator.idle.run terrain.flat gen_op.two_requests).cancel_requests
        ⟨1, "main"⟩).run terrain.flat []).run terrain.flat
          (List.replicate 2 gen_op.work)).delivered :=
  ⟨(cancelled_requests_stay_aborted terrain.flat gen_op.two_requests ⟨1, "main"⟩).1
      ⟨10, ⟨1, "main"⟩, 5, 5, GFL_NONE, 0, 0⟩ (by decide) (by decide) (by decide)
      [gen_op.request ⟨1, "main"⟩ 6 6 10 GFL_NONE 0, gen_op.work, gen_op.work, gen_op.work],
    by decide,
    ((cancelled_requests_stay_aborted terrain.flat gen_op.two_requests ⟨1, "main"⟩).2.2.2.1
      ⟨10, ⟨1, "main"⟩, 6, 6, GFL_NOABORT, 0, 1⟩ (by decide) (by decide) (by decide)
      [] 2 (by decide)).1⟩

/-! ### Starting and stopping the server -/

theorem server.destroy_loop_inits (l : List initializer) :
    ∀ d : server_data,
      (server.destroy_loop l d).1 = l.map (fun i => { i with initialized := false }) := by
  induction l with
  | nil => intro d; rfl
  | cons i rest ih =>
    intro d
    simp only [server.destroy_loop, List.map_cons, ih]

theorem server.destroy_loop_data (l : List initializer) :
    ∀ d : server_data,
      (server.destroy_loop l d).2.1 = l.foldl (fun d i => i.destroy d) d := by
  induction l with
  | nil => intro d; rfl
  | cons i rest ih =>
    intro d
    simp only [server.destroy_loop, List.foldl_cons, ih]

theorem server.destroy_loop_calls (l : List initializer) :
    ∀ d : server_data,
      (server.destroy_loop l d).2.2 = l.map (fun i => call.destroy i.tag) := by
  induction l with
  | nil => intro d; rfl
  | cons i rest ih =>
    intro d
    simp only [server.destroy_loop, List.map_cons, ih]

theorem server.stop_of_running (s : server) (h : s.running = true) :
    s.stop =
      { inits := s.inits.map (fun i => { i with initialized := false })
        running := false
        data := s.inits.reverse.foldl (fun d i => i.destroy d) s.data
        calls := s.calls ++ s.inits.reverse.map (fun i => call.destroy i.tag) } := by
  simp only [server.stop, h, Bool.not_true, Bool.false_eq_true, if_false,
    server.destroy_loop_inits, server.destroy_loop_data, server.destroy_loop_calls,
    List.map_reverse, List.reverse_reverse]

theorem server.stop_of_not_running (s : server) (h : s.running = false) : s.stop = s := by
  simp [server.stop, h]

/-- A standard exception thrown by an initializer does not leave `start`:
the call returns and the server counts as running. -/
theorem server.start_of_std_exception (s : server) (hr : s.running = false) (ex : exception)
    (hex : (server.init_loop s.inits s.data).2.2.2 = some ex) (hstd : ex.is_std = true) :
    s.start.2 = none ∧ s.start.1.running = true := by
  unfold server.start
  rw [hr]
  rcases hl : server.init_loop s.inits s.data with ⟨inits1, d1, calls1, r⟩
  rw [hl] at hex
  simp only at hex
  subst hex
  simp [hstd]

/-- C7: a server whose `init_listener` throws `server_error` (the port is
taken) is started. The initializer throws during `start`, yet `start`
returns without an exception and leaves `running` set, after it has
destroyed the five initializers that were initialized. -/
theorem start_swallows_initializer_failure :
    (server.with_listener (some (exception.server_error
      "failed to create listening socket (port taken?)"))).running = false ∧
    (server.init_loop
      (server.with_listener (some (exception.server_error
        "failed to create listening socket (port taken?)"))).inits
      (server.with_listener (some (exception.server_error
        "failed to create listening socket (port taken?)"))).data).2.2.2 =
      some (exception.server_error "failed to create listening socket (port taken?)") ∧
    (server.with_listener (some (exception.server_error
      "failed to create listening socket (port taken?)"))).start.2 = none ∧
    (server.with_listener (some (exception.server_error
      "failed to create listening socket (port taken?)"))).start.1.running = true ∧
    (server.with_listener (some (exception.server_error
      "failed to create listening socket (port taken?)"))).start.1.calls =
      [call.init "config", call.init "core", call.init "commands", call.init "worlds",
        call.init "workers", call.init "listener", call.destroy "workers",
        call.destroy "worlds", call.destroy "commands", call.destroy "core",
        call.destroy "config"] := by
  refine ⟨rfl, rfl, rfl, rfl, rfl⟩

/-- C8: `stop` on a running server calls the destroy function of every
initializer once, in reverse registration order, and nothing else; it
clears every `initialized` flag and `running`. On a server that does not run
it changes nothing (and calls nothing), so a second `stop` has no effect. -/
theorem stop_destroys_all_once_and_is_idempotent (s : server) :
    (s.running = true →
      s.stop.calls = s.calls ++ s.inits.reverse.map (fun i => call.destroy i.tag) ∧
      s.stop.data = s.inits.reverse.foldl (fun d i => i.destroy d) s.data ∧
      s.stop.inits = s.inits.map (fun i => { i with initialized := false }) ∧
      (∀ i ∈ s.stop.inits, i.initialized = false) ∧
      s.stop.running = false) ∧
    (s.running = false → s.stop = s) ∧
    s.stop.stop = s.stop := by
  refine ⟨?_, server.stop_of_not_running s, ?_⟩
  · intro h
    rw [server.stop_of_running s h]
    refine ⟨rfl, rfl, rfl, ?_, rfl⟩
    intro i hi
    simp only [List.mem_map] at hi
    obtain ⟨j, _, hj⟩ := hi
    rw [← hj]
  · cases h : s.running
    · rw [server.stop_of_not_running s h, server.stop_of_not_running s h]
    · apply server.stop_of_not_running
      rw [server.stop_of_running s h]

/-- C8, witness: the server with its six initializers is started and
stopped; `stop` calls the six destroy functions from `listener` back to
`config`, the world table is empty again, and the server does not run. -/
theorem stop_destroys_all_once_and_is_idempotent_witness :
    (server.with_listener none).start.1.running = true ∧
    (server.with_listener none).start.1.stop.calls =
      (server.with_listener none).start.1.calls ++
        [call.destroy "listener", call.destroy "workers", call.destroy "worlds",
          call.destroy "commands", call.destroy "core", call.destroy "config"] ∧
    (server.with_listener none).start.1.stop.running = false :=
  ⟨rfl,
    ((stop_destroys_all_once_and_is_idempotent (server.with_listener none).start.1).1 rfl).1,
    ((stop_destroys_all_once_and_is_idempotent
      (server.with_listener none).start.1).1 rfl).2.2.2.2⟩

/-! ### Entity ids -/

theorem wrap_int32_succ (c : Int) (h0 : 0 ≤ c) (h1 : c < 2147483648) :
    (if wrap_int32 (c + 1) < 0 then 0 else wrap_int32 (c + 1)) = (c + 1) % 2147483648 := by
  unfold wrap_int32
  split <;> omega

theorem next_entity_id_counter (s : server_data) (h0 : 0 ≤ s.id_counter)
    (h1 : s.id_counter < 2147483648) :
    s.next_entity_id.2.id_counter = (s.id_counter + 1) % 2147483648 := by
  simp only [server_data.next_entity_id]
  exact wrap_int32_succ s.id_counter h0 h1

theorem after_calls_counter (k : Nat) :
    ∀ s : server_data, 0 ≤ s.id_counter → s.id_counter < 2147483648 →
      (s.after_calls k).id_counter = (s.id_counter + k) % 2147483648 := by
  induction k with
  | zero =>
    intro s h0 h1
    simp only [server_data.after_calls]
    omega
  | succ k ih =>
    intro s h0 h1
    have hc := next_entity_id_counter s h0 h1
    have h := ih s.next_entity_id.2 (by omega) (by omega)
    simp only [server_data.after_calls]
    rw [h, hc]
    push_cast
    omega

theorem nth_entity_id_init_core (k : Nat) (s : server_data) :
    s.init_core.nth_entity_id k = (k : Int) % 2147483648 := by
  have h := after_calls_counter k s.init_core (by simp [server_data.init_core])
    (by simp [server_data.init_core])
  simp only [server_data.nth_entity_id, server_data.next_entity_id]
  rw [h]
  simp [server_data.init_core]

/-- C1, as amended: after `init_core` the call number `k` of `next_entity_id`
returns `k mod 2^31`, so no two of the first `2^31` calls return the same
integer. -/
theorem next_entity_id_unique_until_wrap (s : server_data) :
    (∀ k : Nat, s.init_core.nth_entity_id k = (k : Int) % 2147483648) ∧
    (∀ i j : Nat, i < 2147483648 → j < 2147483648 → i ≠ j →
      s.init_core.nth_entity_id i ≠ s.init_core.nth_entity_id j) := by
  refine ⟨fun k => nth_entity_id_init_core k s, ?_⟩
  intro i j hi hj hij
  rw [nth_entity_id_init_core, nth_entity_id_init_core]
  omega

/-- C1, witness: the calls number 5 and number 2147483647 return different
ids, 5 and 2147483647. -/
theorem next_entity_id_unique_until_wrap_witness :
    server_data.initial.init_core.nth_entity_id 5 = 5 ∧
    server_data.initial.init_core.nth_entity_id 5 ≠
      server_data.initial.init_core.nth_entity_id 2147483647 :=
  ⟨by rw [(next_entity_id_unique_until_wrap server_data.initial).1 5]; decide,
    (next_entity_id_unique_until_wrap server_data.initial).2 5 2147483647
      (by decide) (by decide) (by decide)⟩

/-- C1, counterexample: after `init_core` the first call of `next_entity_id`
and the call number 2147483648 (the one after the counter has wrapped and
been reset) both return 0. -/
theorem next_entity_id_repeats :
    (0 : Nat) ≠ 2147483648 ∧
    server_data.initial.init_core.nth_entity_id 0 =
      server_data.initial.init_core.nth_entity_id 2147483648 := by
  refine ⟨by decide, ?_⟩
  rw [nth_entity_id_init_core, nth_entity_id_init_core]
  decide

/-! ### Removing players and finishing a connection -/

theorem playerlist.remove_if_loop_kept (pred : player → Bool) (del : Bool)
    (m : List (String × player)) :
    (playerlist.remove_if_loop pred del m).1 = m.filter (fun e => !pred e.2) := by
  induction m with
  | nil => rfl
  | cons e es ih =>
    simp only [playerlist.remove_if_loop]
    cases h : pred e.2
    · simp [h, ih]
    · simp [h, ih]

theorem playerlist.remove_if_loop_calls (pred : player → Bool) (del : Bool)
    (m : List (String × player)) :
    (playerlist.remove_if_loop pred del m).2.1 = m.map Prod.snd := by
  induction m with
  | nil => rfl
  | cons e es ih =>
    simp only [playerlist.remove_if_loop]
    cases h : pred e.2 <;> simp [ih]

/-- C11: after `remove_if (pred)` the table holds, in their old order and
under their old names, exactly the entries it held before whose player does
not satisfy `pred`; `pred` was called once for every entry, on the player of
the entry. So after `cleanup_players` the table holds exactly the entries
whose player is not `bad ()`. -/
theorem remove_if_removes_exactly (l : playerlist) (pred : player → Bool) (del : Bool) :
    (l.remove_if pred del).1.players = l.players.filter (fun e => !pred e.2) ∧
    (∀ e, e ∈ (l.remove_if pred del).1.players ↔ e ∈ l.players ∧ pred e.2 = false) ∧
    (l.remove_if pred del).2.1 = l.players.map Prod.snd ∧
    (∀ (bad : player → Bool) (s : server_data),
      (s.cleanup_players bad).players.players = s.players.players.filter (fun e => !bad e.2) ∧
      (∀ e, e ∈ (s.cleanup_players bad).players.players ↔
        e ∈ s.players.players ∧ bad e.2 = false)) := by
  have hk : (l.remove_if pred del).1.players = l.players.filter (fun e => !pred e.2) :=
    playerlist.remove_if_loop_kept pred del l.players
  refine ⟨hk, ?_, playerlist.remove_if_loop_calls pred del l.players, ?_⟩
  · intro e
    rw [hk]
    simp [List.mem_filter]
  · intro bad s
    have hc : (s.cleanup_players bad).players.players =
        s.players.players.filter (fun e => !bad e.2) := by
      simp only [server_data.cleanup_players, playerlist.remove_if]
      rw [playerlist.remove_if_loop_kept]
      congr 1
      funext e
      cases bad e.2 <;> rfl
    refine ⟨hc, ?_⟩
    intro e
    rw [hc]
    simp [List.mem_filter]

/-- C11, witness: of "Notch", "jeb" and "Dinnerbone" the predicate picks
"jeb"; the other two stay, under their names, and the predicate was called
on the three players in turn. -/
theorem remove_if_removes_exactly_witness :
    ((⟨[("Notch", ⟨1, "Notch"⟩), ("jeb", ⟨2, "jeb"⟩), ("Dinnerbone", ⟨3, "Dinnerbone"⟩)]⟩ :
        playerlist).remove_if (fun pl => pl.addr == 2) true).1.players =
      [("Notch", ⟨1, "Notch"⟩), ("Dinnerbone", ⟨3, "Dinnerbone"⟩)] ∧
    ((⟨[("Notch", ⟨1, "Notch"⟩), ("jeb", ⟨2, "jeb"⟩), ("Dinnerbone", ⟨3, "Dinnerbone"⟩)]⟩ :
        playerlist).remove_if (fun pl => pl.addr == 2) true).2.1 =
      [⟨1, "Notch"⟩, ⟨2, "jeb"⟩, ⟨3, "Dinnerbone"⟩] :=
  ⟨(remove_if_removes_exactly _ _ true).1.trans (by decide),
    (remove_if_removes_exactly _ _ true).2.2.1.trans (by decide)⟩

theorem server_data.done_connecting_of_full (s : server_data) (pl : player)
    (h : s.players.count = s.max_players) :
    s.done_connecting pl =
      (false, { s with connecting := s.connecting.erase pl }, some "server full") := by
  simp only [server_data.done_connecting, h, if_true]

theorem server_data.done_connecting_of_taken (s : server_data) (pl : player)
    (h : s.players.count ≠ s.max_players) (e : String × player)
    (hf : ci_map.find s.players.players pl.username = some e) :
    s.done_connecting pl =
      (false, { s with connecting := s.connecting.erase pl }, some "already logged in") := by
  simp only [server_data.done_connecting, h, if_false, playerlist.add_of_find_some s.players pl e hf]

theorem server_data.done_connecting_of_free (s : server_data) (pl : player)
    (h : s.players.count ≠ s.max_players)
    (hf : ci_map.find s.players.players pl.username = none) :
    s.done_connecting pl =
      (true, { s with
        players := { s.players with players := s.players.players ++ [(pl.username, pl)] }
        connecting := s.connecting.erase pl }, none) := by
  simp only [server_data.done_connecting, h, if_false, playerlist.add_of_find_none s.players pl hf]

theorem server_data.done_connecting_connecting (s : server_data) (pl : player) :
    (s.done_connecting pl).2.1.connecting = s.connecting.erase pl := by
  by_cases h : s.players.count = s.max_players
  · rw [server_data.done_connecting_of_full s pl h]
  · cases hf : ci_map.find s.players.players pl.username with
    | none => rw [server_data.done_connecting_of_free s pl h hf]
    | some e => rw [server_data.done_connecting_of_taken s pl h e hf]

/-- C12: `done_connecting (pl)` returns false, kicks `pl` and leaves the
player list as it was when the list holds `max_players` players or holds an
entry under a name equal to the user name of `pl` ignoring case; otherwise
it returns true, kicks nobody, and `pl` is in the player list under its user
name. In every case `pl` is not in the list of connecting players afterwards
(a list that holds no player twice) and every other player is in it exactly
when it was before. A list that did not exceed `max_players` does not
exceed it afterwards. -/
theorem done_connecting_spec (s : server_data) (pl : player) (hnd : s.connecting.Nodup) :
    ((s.players.count = s.max_players ∨
        ∃ e ∈ s.players.players, cistring.equals e.1 pl.username = true) →
      (s.done_connecting pl).1 = false ∧ (s.done_connecting pl).2.2.isSome = true ∧
      (s.done_connecting pl).2.1.players = s.players) ∧
    ((s.players.count ≠ s.max_players ∧
        ¬ ∃ e ∈ s.players.players, cistring.equals e.1 pl.username = true) →
      (s.done_connecting pl).1 = true ∧ (s.done_connecting pl).2.2 = none ∧
      (pl.username, pl) ∈ (s.done_connecting pl).2.1.players.players ∧
      (s.done_connecting pl).2.1.players.find pl.username
        player_find_method.case_insensitive = some pl) ∧
    pl ∉ (s.done_connecting pl).2.1.connecting ∧
    (∀ q, q ≠ pl → (q ∈ (s.done_connecting pl).2.1.connecting ↔ q ∈ s.connecting)) ∧
    (s.players.count ≤ s.max_players →
      (s.done_connecting pl).2.1.players.count ≤ s.max_players) := by
  refine ⟨?_, ?_, ?_, ?_, ?_⟩
  · intro h
    by_cases hfull : s.players.count = s.max_players
    · rw [server_data.done_connecting_of_full s pl hfull]
      exact ⟨rfl, rfl, rfl⟩
    · rcases h with h | ⟨e, he, hee⟩
      · exact absurd h hfull
      · cases hf : ci_map.find s.players.players pl.username with
        | none =>
          rw [(ci_map.find_eq_none_iff s.players.players pl.username).1 hf e he] at hee
          exact absurd hee (by decide)
        | some x =>
          rw [server_data.done_connecting_of_taken s pl hfull x hf]
          exact ⟨rfl, rfl, rfl⟩
  · rintro ⟨hfull, hno⟩
    have hf : ci_map.find s.players.players pl.username = none := by
      rw [ci_map.find_eq_none_iff]
      intro e he
      cases h : cistring.equals e.1 pl.username
      · rfl
      · exact absurd ⟨e, he, h⟩ hno
    rw [server_data.done_connecting_of_free s pl hfull hf]
    refine ⟨rfl, rfl, ?_, ?_⟩
    · simp
    · rw [playerlist.find_case_insensitive_eq]
      simp only
      rw [ci_map.find_added s.players.players pl.username pl.username pl hf,
        cistring.equals_refl]
      rfl
  · rw [server_data.done_connecting_connecting]
    intro h
    exact ((List.Nodup.mem_erase_iff hnd).1 h).1 rfl
  · intro q hq
    rw [server_data.done_connecting_connecting, List.Nodup.mem_erase_iff hnd]
    exact ⟨fun h => h.2, fun h => ⟨hq, h⟩⟩
  · intro hle
    by_cases hfull : s.players.count = s.max_players
    · rw [server_data.done_connecting_of_full s pl hfull]
      exact hle
    · cases hf : ci_map.find s.players.players pl.username with
      | none =>
        rw [server_data.done_connecting_of_free s pl hfull hf]
        simp only [playerlist.count, List.length_append, List.length_singleton] at hle hfull ⊢
        push_cast
        omega
      | some x =>
        rw [server_data.done_connecting_of_taken s pl hfull x hf]
        exact hle

/-- C12, witness: on a server with "Notch" and "jeb" connecting and nobody
logged in, "Notch" finishes connecting: the call returns true, "Notch" is
in the player list and only "jeb" is still connecting. -/
theorem done_connecting_spec_witness :
    ({ server_data.initial with
        connecting := [⟨1, "Notch"⟩, ⟨2, "jeb"⟩] }.done_connecting ⟨1, "Notch"⟩).1 = true ∧
    ({ server_data.initial with
        connecting := [⟨1, "Notch"⟩, ⟨2, "jeb"⟩] }.done_connecting ⟨1, "Notch"⟩).2.1.connecting =
      [⟨2, "jeb"⟩] ∧
    (⟨1, "Notch"⟩ : player) ∉
      ({ server_data.initial with
        connecting := [⟨1, "Notch"⟩, ⟨2, "jeb"⟩] }.done_connecting
          ⟨1, "Notch"⟩).2.1.connecting :=
  ⟨by decide, by decide,
    (done_connecting_spec
      { server_data.initial with connecting := [⟨1, "Notch"⟩, ⟨2, "jeb"⟩] } ⟨1, "Notch"⟩
      (by decide)).2.2.1⟩

/-! ### Time strings -/

theorem to_char_of_byte (b : Nat) (h : b < 128) : to_char (b : Int) = b := by
  unfold to_char
  omega

theorem is_digit_byte_iff (b : Nat) : is_digit_byte b = true ↔ 48 ≤ b ∧ b ≤ 57 := by
  simp [is_digit_byte]

theorem takeWhile_digits (ds rest : List Nat) (hds : ∀ b ∈ ds, is_digit_byte b = true)
    (hrest : ∀ b t, rest = b :: t → is_digit_byte b = false) :
    (ds ++ rest).takeWhile is_digit_byte = ds := by
  rw [List.takeWhile_append_of_pos hds]
  cases rest with
  | nil => simp
  | cons b t => simp [List.takeWhile_cons, hrest b t rfl]

theorem dropWhile_digits (ds rest : List Nat) (hds : ∀ b ∈ ds, is_digit_byte b = true)
    (hrest : ∀ b t, rest = b :: t → is_digit_byte b = false) :
    (ds ++ rest).dropWhile is_digit_byte = rest := by
  rw [List.dropWhile_append_of_pos hds]
  cases rest with
  | nil => simp
  | cons b t => simp [List.dropWhile_cons, hrest b t rfl]

/-- A run of digits that is followed by the end of the input, or by a byte
that is no digit, point, `e` or `E`, is read as the number it denotes, and
the stream stands behind the run. -/
theorem istringstream.read_double_digits (ds rest : List Nat)
    (hds : ∀ b ∈ ds, is_digit_byte b = true) (hne : ds ≠ [])
    (hrest : ∀ b t, rest = b :: t → is_digit_byte b = false ∧ b ≠ 46 ∧ b ≠ 101 ∧ b ≠ 69)
    (hval : decimal_value ds < dbl_overflow) :
    istringstream.read_double ⟨ds ++ rest, false⟩ =
      (⟨(decimal_value ds : Nat), 1⟩, ⟨rest, false⟩) := by
  have htake := takeWhile_digits ds rest hds (fun b t h => (hrest b t h).1)
  have hdrop := dropWhile_digits ds rest hds (fun b t h => (hrest b t h).1)
  have hempty : ds.isEmpty = false := by
    cases ds with
    | nil => exact absurd rfl hne
    | cons _ _ => rfl
  unfold istringstream.read_double
  simp only [htake, hdrop]
  cases rest with
  | nil =>
    simp [hempty, Nat.not_le.2 hval]
  | cons b t =>
    obtain ⟨_, h46, h101, h69⟩ := hrest b t rfl
    have hm1 : (match b :: t with | 46 :: t => List.takeWhile is_digit_byte t | _ => []) = [] := by
      split
      · rename_i heq
        simp at heq
        exact absurd heq.1 h46
      · rfl
    have hm2 : (match b :: t with | 46 :: t => List.dropWhile is_digit_byte t | _ => b :: t)
        = b :: t := by
      split
      · rename_i heq
        simp at heq
        exact absurd heq.1 h46
      · rfl
    simp only [hm1, hm2]
    simp [hempty, h101, h69, Nat.not_le.2 hval]
theorem dbl.to_int_whole (v : Int) : dbl.to_int ⟨v, 1⟩ = v := by
  simp [dbl.to_int]

theorem utils.seconds_loop_end (k : Nat) (s : dbl) :
    utils.seconds_loop (k + 1) ⟨[], false⟩ s = some s.to_int := by
  simp [utils.seconds_loop, istringstream.peek, to_char]

theorem utils.seconds_loop_mono (fuel : Nat) :
    ∀ (ss : istringstream) (s : dbl) (r : Int),
      utils.seconds_loop fuel ss s = some r → utils.seconds_loop (fuel + 1) ss s = some r := by
  induction fuel with
  | zero =>
    intro ss s r h
    simp [utils.seconds_loop] at h
  | succ fuel ih =>
    intro ss s r h
    rw [utils.seconds_loop] at h ⊢
    simp only at h ⊢
    split_ifs at h ⊢ <;> first | exact h | exact ih _ _ _ h

theorem utils.seconds_loop_mono_add (k fuel : Nat) (ss : istringstream) (s : dbl) (r : Int)
    (h : utils.seconds_loop fuel ss s = some r) :
    utils.seconds_loop (fuel + k) ss s = some r := by
  induction k with
  | zero => exact h
  | succ k ih => exact utils.seconds_loop_mono (fuel + k) ss s r ih

theorem is_unit_byte_iff (u : Nat) :
    is_unit_byte u = true ↔ u = 115 ∨ u = 109 ∨ u = 104 ∨ u = 100 := by
  simp [is_unit_byte, or_assoc]

/-- One turn of the loop on a run of digits and a unit letter: the number
times the seconds of the unit is added to the sum. -/
theorem utils.seconds_loop_group (fuel : Nat) (ds : List Nat) (u : Nat) (rest : List Nat)
    (v : Int) (hds : ∀ b ∈ ds, is_digit_byte b = true) (hne : ds ≠ [])
    (hu : is_unit_byte u = true) (hval : decimal_value ds < dbl_overflow) :
    utils.seconds_loop (fuel + 1) ⟨ds ++ u :: rest, false⟩ ⟨v, 1⟩ =
      utils.seconds_loop fuel ⟨rest, false⟩
        ⟨v + ((decimal_value ds * unit_seconds u : Nat) : Int), 1⟩ := by
  have hread := istringstream.read_double_digits ds (u :: rest) hds hne
    (by
      intro b t hbt
      have hb : b = u := by
        simp only [List.cons.injEq] at hbt
        exact hbt.1.symm
      subst hb
      rw [is_unit_byte_iff] at hu
      rcases hu with h | h | h | h <;> subst h <;> decide) hval
  obtain ⟨d0, ds1, hd⟩ := List.exists_cons_of_ne_nil hne
  have hd0 := (is_digit_byte_iff d0).1 (hds d0 (by rw [hd]; exact List.mem_cons_self _ _))
  have hpeek : (⟨ds ++ u :: rest, false⟩ : istringstream).peek = (d0 : Int) := by
    rw [hd]
    rfl
  have hc0 : to_char (d0 : Int) = d0 := to_char_of_byte d0 (by omega)
  rw [utils.seconds_loop]
  simp only [hpeek, hc0, hread]
  have h1 : ¬ ((d0 : Int) = -1) := by omega
  have h2 : isdigit (d0 : Int) = true := by
    simp only [isdigit, Bool.and_eq_true, decide_eq_true_eq]
    omega
  have h3 : ¬ ((decimal_value ds : Int) < 0) := by omega
  simp only [h1, h2, h3, if_false, Bool.not_true, Bool.false_eq_true]
  have hpeek1 : (⟨u :: rest, false⟩ : istringstream).peek = (u : Int) := rfl
  have hget : (⟨u :: rest, false⟩ : istringstream).get = ⟨rest, false⟩ := rfl
  rw [hpeek1, hget]
  rw [is_unit_byte_iff] at hu
  rcases hu with h | h | h | h <;> subst h <;>
    simp [to_char, isalpha, dbl.add, dbl.scale, unit_seconds]

theorem groups_text_cons (g : List Nat × Nat) (gs : List (List Nat × Nat)) :
    groups_text (g :: gs) = g.1 ++ g.2 :: groups_text gs := by
  simp [groups_text]

theorem groups_seconds_cons (g : List Nat × Nat) (gs : List (List Nat × Nat)) :
    groups_seconds (g :: gs) = decimal_value g.1 * unit_seconds g.2 + groups_seconds gs := by
  simp [groups_seconds]

/-- The turns of the loop on a sequence of groups of digits and a unit
letter: the seconds of the groups are added to the sum. -/
theorem utils.seconds_loop_groups (gs : List (List Nat × Nat)) :
    ∀ (fuel : Nat) (rest : List Nat) (v : Int),
      (∀ g ∈ gs, (∀ b ∈ g.1, is_digit_byte b = true) ∧ g.1 ≠ [] ∧ is_unit_byte g.2 = true ∧
        decimal_value g.1 < dbl_overflow) →
      utils.seconds_loop (fuel + gs.length) ⟨groups_text gs ++ rest, false⟩ ⟨v, 1⟩ =
        utils.seconds_loop fuel ⟨rest, false⟩ ⟨v + (groups_seconds gs : Nat), 1⟩ := by
  induction gs with
  | nil =>
    intro fuel rest v _
    simp [groups_text, groups_seconds]
  | cons g gs ih =>
    intro fuel rest v h
    obtain ⟨hds, hne, hu, hval⟩ := h g (List.mem_cons_self _ _)
    rw [groups_text_cons, groups_seconds_cons, List.length_cons, ← Nat.add_assoc,
      List.append_assoc, List.cons_append]
    rw [utils.seconds_loop_group (fuel + gs.length) g.1 g.2 (groups_text gs ++ rest) v
      hds hne hu hval]
    rw [ih fuel rest _ (fun x hx => h x (List.mem_cons_of_mem _ hx))]
    congr 2
    push_cast
    ring
theorem dbl_overflow_large : 2147483648 < dbl_overflow := by
  decide

theorem unit_seconds_pos (u : Nat) (hu : is_unit_byte u = true) : 1 ≤ unit_seconds u := by
  rw [is_unit_byte_iff] at hu
  rcases hu with h | h | h | h <;> subst h <;> decide

theorem decimal_value_le_groups_seconds (gs : List (List Nat × Nat)) :
    ∀ g ∈ gs, is_unit_byte g.2 = true → decimal_value g.1 ≤ groups_seconds gs := by
  induction gs with
  | nil => intro g hg; exact absurd hg (List.not_mem_nil g)
  | cons x xs ih =>
    intro g hg hu
    rw [groups_seconds_cons]
    rcases List.mem_cons.1 hg with h | h
    · subst h
      have := unit_seconds_pos g.2 hu
      calc decimal_value g.1 = decimal_value g.1 * 1 := (Nat.mul_one _).symm
        _ ≤ decimal_value g.1 * unit_seconds g.2 := Nat.mul_le_mul_left _ this
        _ ≤ _ := Nat.le_add_right _ _
    · exact Nat.le_trans (ih g h hu) (Nat.le_add_left _ _)

theorem groups_text_length (gs : List (List Nat × Nat)) :
    gs.length ≤ (groups_text gs).length := by
  induction gs with
  | nil => simp [groups_text]
  | cons g gs ih =>
    rw [groups_text_cons]
    simp only [List.length_cons, List.length_append]
    omega

/-- The last turns of the loop on a run of digits at the end of the string. -/
theorem utils.seconds_loop_last (k : Nat) (last : List Nat) (v : Int)
    (hds : ∀ b ∈ last, is_digit_byte b = true) (hne : last ≠ [])
    (hval : decimal_value last < dbl_overflow) :
    utils.seconds_loop (k + 2) ⟨last, false⟩ ⟨v, 1⟩ = some (v + (decimal_value last : Nat)) := by
  have hread := istringstream.read_double_digits last [] hds hne
    (fun b t h => absurd h (List.noConfusion)) hval
  rw [List.append_nil] at hread
  obtain ⟨d0, ds1, hd⟩ := List.exists_cons_of_ne_nil hne
  have hd0 := (is_digit_byte_iff d0).1 (hds d0 (by rw [hd]; exact List.mem_cons_self _ _))
  have hpeek : (⟨last, false⟩ : istringstream).peek = (d0 : Int) := by
    rw [hd]
    rfl
  have hc0 : to_char (d0 : Int) = d0 := to_char_of_byte d0 (by omega)
  rw [utils.seconds_loop]
  simp only [hpeek, hc0, hread]
  have h1 : ¬ ((d0 : Int) = -1) := by omega
  have h2 : isdigit (d0 : Int) = true := by
    simp only [isdigit, Bool.and_eq_true, decide_eq_true_eq]
    omega
  have h3 : ¬ ((decimal_value last : Int) < 0) := by omega
  simp only [h1, h2, h3, if_false, Bool.not_true, Bool.false_eq_true]
  have hpeek1 : (⟨[], false⟩ : istringstream).peek = -1 := rfl
  have ha : isalpha (to_char (-1)) = false := by decide
  rw [hpeek1]
  simp only [ha, Bool.false_eq_true, if_false]
  rw [utils.seconds_loop_end]
  simp [dbl.add, dbl.to_int]

/-- C13: for a string made of groups of one or more decimal digits followed
by one of the letters `s`, `m`, `h`, `d`, and a last run of digits that may
be missing, `seconds_from_time_str` returns the sum of the numbers, each
times the seconds of its unit (1 for the run without letter), when the sum
is below 2^31. -/
theorem seconds_from_time_str_value (gs : List (List Nat × Nat)) (last : List Nat)
    (hgs : ∀ g ∈ gs, (∀ b ∈ g.1, is_digit_byte b = true) ∧ g.1 ≠ [] ∧
      is_unit_byte g.2 = true)
    (hlast : ∀ b ∈ last, is_digit_byte b = true)
    (hsum : groups_seconds gs + decimal_value last < 2147483648) :
    utils.seconds_from_time_str (groups_text gs ++ last) =
      some ((groups_seconds gs + decimal_value last : Nat) : Int) := by
  have hbig := dbl_overflow_large
  have hgs1 : ∀ g ∈ gs, (∀ b ∈ g.1, is_digit_byte b = true) ∧ g.1 ≠ [] ∧
      is_unit_byte g.2 = true ∧ decimal_value g.1 < dbl_overflow := by
    intro g hg
    obtain ⟨h1, h2, h3⟩ := hgs g hg
    have := decimal_value_le_groups_seconds gs g hg h3
    exact ⟨h1, h2, h3, by omega⟩
  have hlen := groups_text_length gs
  unfold utils.seconds_from_time_str
  by_cases hl : last = []
  · subst hl
    have hstep := utils.seconds_loop_groups gs 1 [] 0 hgs1
    rw [utils.seconds_loop_end, dbl.to_int_whole] at hstep
    have hfuel : (groups_text gs ++ []).length + 1 =
        (1 + gs.length) + ((groups_text gs).length - gs.length) := by
      simp only [List.append_nil]
      omega
    rw [hfuel]
    apply utils.seconds_loop_mono_add
    rw [hstep]
    simp [decimal_value]
  · have hstep := utils.seconds_loop_groups gs 2 last 0 hgs1
    rw [utils.seconds_loop_last 0 last _ hlast hl (by omega)] at hstep
    have hpos : 1 ≤ last.length := by
      cases last with
      | nil => exact absurd rfl hl
      | cons _ _ => simp
    have hfuel : (groups_text gs ++ last).length + 1 =
        (2 + gs.length) + ((groups_text gs).length - gs.length + (last.length - 1)) := by
      simp only [List.length_append]
      omega
    rw [hfuel]
    apply utils.seconds_loop_mono_add
    rw [hstep]
    simp

/-- C13, witness: "4m2s" is the groups "4m" and "2s"; the result is 242. The
other examples: "30", "12s", "100s", "12h", "3d" and the empty string. -/
theorem seconds_from_time_str_value_witness :
    utils.seconds_from_time_str (ascii "4m2s") = some 242 ∧
    utils.seconds_from_time_str (ascii "30") = some 30 ∧
    utils.seconds_from_time_str (ascii "12s") = some 12 ∧
    utils.seconds_from_time_str (ascii "100s") = some 100 ∧
    utils.seconds_from_time_str (ascii "12h") = some 43200 ∧
    utils.seconds_from_time_str (ascii "3d") = some 259200 ∧
    utils.seconds_from_time_str (ascii "") = some 0 :=
  ⟨seconds_from_time_str_value [([52], 109), ([50], 115)] [] (by decide) (by decide)
      (by decide),
    seconds_from_time_str_value [] [51, 48] (by decide) (by decide) (by decide),
    by decide, by decide, by decide, by decide, by decide⟩
theorem to_char_of_high_byte (c : Nat) (h1 : 128 ≤ c) (h2 : c < 255) :
    to_char (c : Int) = (c : Int) - 256 := by
  unfold to_char
  omega

/-- A byte that is no digit and not 255 is not taken for a digit or for the
end of the input. -/
theorem to_char_not_digit (c : Nat) (hc : is_digit_byte c = false) (h255 : c < 255) :
    to_char (c : Int) ≠ -1 ∧ isdigit (to_char (c : Int)) = false := by
  have hnd : ¬ (48 ≤ c ∧ c ≤ 57) := by
    intro h
    rw [(is_digit_byte_iff c).2 h] at hc
    exact absurd hc (by decide)
  by_cases h : c < 128
  · rw [to_char_of_byte c h]
    refine ⟨by omega, ?_⟩
    simp only [isdigit, Bool.and_eq_false_iff, decide_eq_false_iff_not]
    omega
  · rw [to_char_of_high_byte c (by omega) h255]
    refine ⟨by omega, ?_⟩
    simp only [isdigit, Bool.and_eq_false_iff, decide_eq_false_iff_not]
    omega

/-- A turn of the loop that finds a byte that is no digit returns -1. -/
theorem utils.seconds_loop_bad_byte (k : Nat) (c : Nat) (tail : List Nat) (s : dbl)
    (hc : is_digit_byte c = false) (h255 : c < 255) :
    utils.seconds_loop (k + 1) ⟨c :: tail, false⟩ s = some (-1) := by
  obtain ⟨h1, h2⟩ := to_char_not_digit c hc h255
  have hpeek : (⟨c :: tail, false⟩ : istringstream).peek = (c : Int) := rfl
  rw [utils.seconds_loop]
  simp only [hpeek, h1, h2, if_false, Bool.not_false, if_true]

theorem head_not_digit_cons (c : Nat) (l : List Nat) (hc : is_digit_byte c = false) :
    ∀ b t, c :: l = b :: t → is_digit_byte b = false := by
  intro b t h
  simp only [List.cons.injEq] at h
  rw [← h.1]
  exact hc

/-- A run of digits, a point and a run of digits that is followed by the end
of the input, or by a byte that is no digit, `e` or `E`, is read as the
number it denotes, and the stream stands behind it. -/
theorem istringstream.read_double_point (ip f rest : List Nat)
    (hip : ∀ b ∈ ip, is_digit_byte b = true) (hne : ip ≠ [])
    (hf : ∀ b ∈ f, is_digit_byte b = true)
    (hrest : ∀ b t, rest = b :: t → is_digit_byte b = false ∧ b ≠ 101 ∧ b ≠ 69)
    (hval : ¬ dbl_overflow * 10 ^ f.length ≤ decimal_value (ip ++ f)) :
    istringstream.read_double ⟨ip ++ 46 :: (f ++ rest), false⟩ =
      (⟨(decimal_value (ip ++ f) : Nat), 10 ^ f.length⟩, ⟨rest, false⟩) := by
  have htake := takeWhile_digits ip (46 :: (f ++ rest)) hip
    (head_not_digit_cons 46 _ (by decide))
  have hdrop := dropWhile_digits ip (46 :: (f ++ rest)) hip
    (head_not_digit_cons 46 _ (by decide))
  have htake2 := takeWhile_digits f rest hf (fun b t h => (hrest b t h).1)
  have hdrop2 := dropWhile_digits f rest hf (fun b t h => (hrest b t h).1)
  have hempty : (ip ++ f).isEmpty = false := by
    cases ip with
    | nil => exact absurd rfl hne
    | cons _ _ => rfl
  unfold istringstream.read_double
  simp only [htake, hdrop, htake2, hdrop2]
  cases rest with
  | nil => simp [hempty, hval]
  | cons b t =>
    obtain ⟨_, h101, h69⟩ := hrest b t rfl
    simp [hempty, h101, h69, hval]

/-- What follows the letter of an exponent: the sign is taken, then the
digits. -/
theorem istringstream.read_double_sign (sg ep rest : List Nat)
    (hsg : sg = [] ∨ sg = [43] ∨ sg = [45])
    (hep : ∀ b ∈ ep, is_digit_byte b = true) (hne : ep ≠ [])
    (hrest : ∀ b t, rest = b :: t → is_digit_byte b = false) :
    (match sg ++ (ep ++ rest) with
      | 45 :: _ => true
      | _ => false) = decide (sg = [45]) ∧
    List.takeWhile is_digit_byte
      (match sg ++ (ep ++ rest) with
        | 43 :: t => t
        | 45 :: t => t
        | _ => sg ++ (ep ++ rest)) = ep ∧
    List.dropWhile is_digit_byte
      (match sg ++ (ep ++ rest) with
        | 43 :: t => t
        | 45 :: t => t
        | _ => sg ++ (ep ++ rest)) = rest := by
  have htake := takeWhile_digits ep rest hep hrest
  have hdrop := dropWhile_digits ep rest hep hrest
  rcases hsg with h | h | h
  · subst h
    obtain ⟨d, ep1, hd⟩ := List.exists_cons_of_ne_nil hne
    have hd0 := (is_digit_byte_iff d).1 (hep d (by rw [hd]; exact List.mem_cons_self _ _))
    subst hd
    simp only [List.nil_append, List.cons_append] at htake hdrop ⊢
    refine ⟨?_, ?_, ?_⟩
    · split
      · rename_i heq
        simp at heq
        omega
      · rfl
    · split
      · rename_i heq
        simp at heq
        omega
      · rename_i heq
        simp at heq
        omega
      · exact htake
    · split
      · rename_i heq
        simp at heq
        omega
      · rename_i heq
        simp at heq
        omega
      · exact hdrop
  · subst h
    exact ⟨rfl, htake, hdrop⟩
  · subst h
    exact ⟨rfl, htake, hdrop⟩

/-- A run of digits and an exponent that is followed by the end of the
input, or by a byte that is no digit, is read as the number it denotes, and
the stream stands behind it. -/
theorem istringstream.read_double_exp (ip sg ep rest : List Nat) (e : Nat)
    (hip : ∀ b ∈ ip, is_digit_byte b = true) (hne : ip ≠ [])
    (he : e = 101 ∨ e = 69) (hsg : sg = [] ∨ sg = [43] ∨ sg = [45])
    (hep : ∀ b ∈ ep, is_digit_byte b = true) (hepne : ep ≠ [])
    (hrest : ∀ b t, rest = b :: t → is_digit_byte b = false)
    (hval : ¬ dbl_overflow * (if sg = [45] then 10 ^ 0 * 10 ^ decimal_value ep else 10 ^ 0) ≤
      (if sg = [45] then decimal_value ip else decimal_value ip * 10 ^ decimal_value ep)) :
    istringstream.read_double ⟨ip ++ e :: (sg ++ (ep ++ rest)), false⟩ =
      (⟨((if sg = [45] then decimal_value ip
          else decimal_value ip * 10 ^ decimal_value ep : Nat) : Int),
        if sg = [45] then 10 ^ 0 * 10 ^ decimal_value ep else 10 ^ 0⟩, ⟨rest, false⟩) := by
  have hed : is_digit_byte e = false := by
    rcases he with h | h <;> subst h <;> decide
  have he46 : e ≠ 46 := by
    rcases he with h | h <;> subst h <;> decide
  have htake := takeWhile_digits ip (e :: (sg ++ (ep ++ rest))) hip
    (head_not_digit_cons e _ hed)
  have hdrop := dropWhile_digits ip (e :: (sg ++ (ep ++ rest))) hip
    (head_not_digit_cons e _ hed)
  obtain ⟨hs1, hs2, hs3⟩ := istringstream.read_double_sign sg ep rest hsg hep hepne hrest
  have hempty : ip.isEmpty = false := by
    cases ip with
    | nil => exact absurd rfl hne
    | cons _ _ => rfl
  have hepempty : ep.isEmpty = false := by
    cases ep with
    | nil => exact absurd rfl hepne
    | cons _ _ => rfl
  have hm1 : (match e :: (sg ++ (ep ++ rest)) with
      | 46 :: t => List.takeWhile is_digit_byte t
      | _ => []) = [] := by
    split
    · rename_i heq
      simp at heq
      exact absurd heq.1 he46
    · rfl
  have hm2 : (match e :: (sg ++ (ep ++ rest)) with
      | 46 :: t => List.dropWhile is_digit_byte t
      | _ => e :: (sg ++ (ep ++ rest))) = e :: (sg ++ (ep ++ rest)) := by
    split
    · rename_i heq
      simp at heq
      exact absurd heq.1 he46
    · rfl
  have hsci : (e == 101 || e == 69) = true := by
    rcases he with h | h <;> subst h <;> decide
  unfold istringstream.read_double
  simp only [htake, hdrop, hm1, hm2, List.tail_cons, hs1, hs2, hs3, List.append_nil, hempty,
    hepempty, hsci]
  by_cases h45 : sg = [45]
  · simp only [h45, if_true, pow_zero, one_mul, not_le] at hval
    simp [h45, hval]
  · simp only [h45, if_false, pow_zero, mul_one, not_le] at hval
    simp [h45, hval]

/-- A run of digits, a point, a run of digits and an exponent that is
followed by the end of the input, or by a byte that is no digit, is read as
the number it denotes, and the stream stands behind it. -/
theorem istringstream.read_double_point_exp (ip f sg ep rest : List Nat) (e : Nat)
    (hip : ∀ b ∈ ip, is_digit_byte b = true) (hne : ip ≠ [])
    (hf : ∀ b ∈ f, is_digit_byte b = true)
    (he : e = 101 ∨ e = 69) (hsg : sg = [] ∨ sg = [43] ∨ sg = [45])
    (hep : ∀ b ∈ ep, is_digit_byte b = true) (hepne : ep ≠ [])
    (hrest : ∀ b t, rest = b :: t → is_digit_byte b = false)
    (hval : ¬ dbl_overflow *
        (if sg = [45] then 10 ^ f.length * 10 ^ decimal_value ep else 10 ^ f.length) ≤
      (if sg = [45] then decimal_value (ip ++ f)
        else decimal_value (ip ++ f) * 10 ^ decimal_value ep)) :
    istringstream.read_double ⟨ip ++ 46 :: (f ++ e :: (sg ++ (ep ++ rest))), false⟩ =
      (⟨((if sg = [45] then decimal_value (ip ++ f)
          else decimal_value (ip ++ f) * 10 ^ decimal_value ep : Nat) : Int),
        if sg = [45] then 10 ^ f.length * 10 ^ decimal_value ep else 10 ^ f.length⟩,
        ⟨rest, false⟩) := by
  have hed : is_digit_byte e = false := by
    rcases he with h | h <;> subst h <;> decide
  have htake := takeWhile_digits ip (46 :: (f ++ e :: (sg ++ (ep ++ rest)))) hip
    (head_not_digit_cons 46 _ (by decide))
  have hdrop := dropWhile_digits ip (46 :: (f ++ e :: (sg ++ (ep ++ rest)))) hip
    (head_not_digit_cons 46 _ (by decide))
  have htake2 := takeWhile_digits f (e :: (sg ++ (ep ++ rest))) hf
    (head_not_digit_cons e _ hed)
  have hdrop2 := dropWhile_digits f (e :: (sg ++ (ep ++ rest))) hf
    (head_not_digit_cons e _ hed)
  obtain ⟨hs1, hs2, hs3⟩ := istringstream.read_double_sign sg ep rest hsg hep hepne hrest
  have hempty : (ip ++ f).isEmpty = false := by
    cases ip with
    | nil => exact absurd rfl hne
    | cons _ _ => rfl
  have hepempty : ep.isEmpty = false := by
    cases ep with
    | nil => exact absurd rfl hepne
    | cons _ _ => rfl
  have hsci : (e == 101 || e == 69) = true := by
    rcases he with h | h <;> subst h <;> decide
  unfold istringstream.read_double
  simp only [htake, hdrop, htake2, hdrop2, List.tail_cons, hs1, hs2, hs3, hempty, hepempty,
    hsci]
  by_cases h45 : sg = [45]
  · simp only [h45, if_true, not_le] at hval
    simp [h45, hval]
  · simp only [h45, if_false, not_le] at hval
    simp [h45, hval]

theorem numeral.wf_iff (x : numeral) :
    x.wf = true ↔
      x.ip ≠ [] ∧ (∀ b ∈ x.ip, is_digit_byte b = true) ∧
      (∀ b ∈ x.fp.getD [], is_digit_byte b = true) ∧
      (∀ e sg ep, x.ex = some (e, sg, ep) →
        (e = 101 ∨ e = 69) ∧ (sg = [] ∨ sg = [43] ∨ sg = [45]) ∧ ep ≠ [] ∧
          ∀ b ∈ ep, is_digit_byte b = true) := by
  obtain ⟨ip, fp, ex⟩ := x
  cases ex with
  | none => simp [numeral.wf, List.isEmpty_iff, and_assoc]
  | some p =>
    obtain ⟨e, sg, ep⟩ := p
    simp [numeral.wf, List.isEmpty_iff, and_assoc, or_assoc]

/-- A well-formed number that is not too large, followed by the end of the
input or by a byte that the stream leaves out of the number, is read as the
double it denotes, and the stream stands behind it. -/
theorem istringstream.read_double_numeral (x : numeral) (rest : List Nat)
    (hwf : x.wf = true) (hfits : x.fits = true)
    (hrest : ∀ b t, rest = b :: t → x.ends_at b = true) :
    istringstream.read_double ⟨x.text ++ rest, false⟩ = (x.value, ⟨rest, false⟩) := by
  obtain ⟨hne, hip, hf, hex⟩ := (numeral.wf_iff x).1 hwf
  obtain ⟨ip, fp, ex⟩ := x
  simp only [numeral.fits, decide_eq_true_eq] at hfits
  have hdig : ∀ b t, rest = b :: t → is_digit_byte b = false := by
    intro b t h
    have := hrest b t h
    simp only [numeral.ends_at, Bool.and_eq_true, Bool.not_eq_true'] at this
    exact this.1.1
  cases ex with
  | none =>
    cases fp with
    | none =>
      simp only [numeral.text, numeral.value, Option.getD_none, List.append_nil,
        List.length_nil, pow_zero] at hfits ⊢
      apply istringstream.read_double_digits ip rest hip hne
      · intro b t h
        have := hrest b t h
        simp [numeral.ends_at] at this
        exact ⟨hdig b t h, this.1.2, this.2.1, this.2.2⟩
      · simpa using hfits
    | some f =>
      simp only [numeral.text, numeral.value, Option.getD_some, List.append_nil,
        List.append_assoc, List.cons_append] at hfits ⊢
      apply istringstream.read_double_point ip f rest hip hne hf
      · intro b t h
        have := hrest b t h
        simp [numeral.ends_at] at this
        exact ⟨hdig b t h, this.2.1, this.2.2⟩
      · rw [not_le]
        exact_mod_cast hfits
  | some p =>
    obtain ⟨e, sg, ep⟩ := p
    obtain ⟨he, hsg, hepne, hep⟩ := hex e sg ep rfl
    cases fp with
    | none =>
      simp only [numeral.text, numeral.value, Option.getD_none, List.append_nil,
        List.length_nil, List.append_assoc, List.cons_append] at hfits ⊢
      have h := istringstream.read_double_exp ip sg ep rest e hip hne he hsg hep hepne hdig
        (by
          rw [not_le]
          split_ifs with h45 <;> simp only [h45, if_true, if_false] at hfits <;>
            exact_mod_cast hfits)
      rw [h]
      split_ifs <;> rfl
    | some f =>
      simp only [numeral.text, numeral.value, Option.getD_some, List.append_nil,
        List.append_assoc, List.cons_append] at hfits ⊢
      have h := istringstream.read_double_point_exp ip f sg ep rest e hip hne hf he hsg hep
        hepne hdig
        (by
          rw [not_le]
          split_ifs with h45 <;> simp only [h45, if_true, if_false] at hfits <;>
            exact_mod_cast hfits)
      rw [h]
      split_ifs <;> rfl

theorem numeral.text_head (x : numeral) (hwf : x.wf = true) :
    ∃ d0 t, x.text = d0 :: t ∧ 48 ≤ d0 ∧ d0 ≤ 57 := by
  obtain ⟨hne, hip, _, _⟩ := (numeral.wf_iff x).1 hwf
  obtain ⟨d0, ds1, hd⟩ := List.exists_cons_of_ne_nil hne
  have hd0 := (is_digit_byte_iff d0).1 (hip d0 (by rw [hd]; exact List.mem_cons_self _ _))
  cases hx : x.text with
  | nil =>
    unfold numeral.text at hx
    rw [hd] at hx
    simp at hx
  | cons a t =>
    unfold numeral.text at hx
    rw [hd] at hx
    simp only [List.cons_append, List.cons.injEq] at hx
    exact ⟨a, t, rfl, by omega, by omega⟩

theorem numeral.value_nonneg (x : numeral) : 0 ≤ x.value.num := by
  unfold numeral.value
  simp only
  split
  · split <;> exact Int.natCast_nonneg _
  · exact Int.natCast_nonneg _

theorem numeral.ends_at_unit (x : numeral) (u : Nat) (hu : is_unit_byte u = true) :
    x.ends_at u = true := by
  rw [is_unit_byte_iff] at hu
  rcases hu with h | h | h | h <;> subst h <;> rfl

theorem dbl.add_nonneg (a b : dbl) (ha : 0 ≤ a.num) (hb : 0 ≤ b.num) : 0 ≤ (a.add b).num := by
  unfold dbl.add
  simp only
  positivity

theorem dbl.scale_nonneg (a : dbl) (k : Nat) (ha : 0 ≤ a.num) : 0 ≤ (a.scale k).num := by
  unfold dbl.scale
  simp only
  positivity

theorem dbl.to_int_nonneg (a : dbl) (ha : 0 ≤ a.num) : 0 ≤ a.to_int := by
  unfold dbl.to_int
  exact Int.tdiv_nonneg ha (Int.natCast_nonneg _)

/-- One turn of the loop on a number: the number is read, and the loop goes
on with the byte behind it. -/
theorem utils.seconds_loop_numeral (fuel : Nat) (x : numeral) (rest : List Nat) (s : dbl)
    (hwf : x.wf = true) (hfits : x.fits = true)
    (hrest : ∀ b t, rest = b :: t → x.ends_at b = true) :
    utils.seconds_loop (fuel + 1) ⟨x.text ++ rest, false⟩ s =
      if isalpha (to_char (⟨rest, false⟩ : istringstream).peek) then
        if to_char (⟨rest, false⟩ : istringstream).peek = 115 then
          utils.seconds_loop fuel (⟨rest, false⟩ : istringstream).get (s.add x.value)
        else if to_char (⟨rest, false⟩ : istringstream).peek = 109 then
          utils.seconds_loop fuel (⟨rest, false⟩ : istringstream).get
            (s.add (x.value.scale 60))
        else if to_char (⟨rest, false⟩ : istringstream).peek = 104 then
          utils.seconds_loop fuel (⟨rest, false⟩ : istringstream).get
            (s.add (x.value.scale 3600))
        else if to_char (⟨rest, false⟩ : istringstream).peek = 100 then
          utils.seconds_loop fuel (⟨rest, false⟩ : istringstream).get
            (s.add (x.value.scale 86400))
        else some (-1)
      else utils.seconds_loop fuel ⟨rest, false⟩ (s.add x.value) := by
  have hread := istringstream.read_double_numeral x rest hwf hfits hrest
  obtain ⟨d0, t, hd, hd0⟩ := numeral.text_head x hwf
  have hpeek : (⟨x.text ++ rest, false⟩ : istringstream).peek = (d0 : Int) := by
    rw [hd]
    rfl
  have hc0 : to_char (d0 : Int) = d0 := to_char_of_byte d0 (by omega)
  rw [utils.seconds_loop]
  simp only [hpeek, hc0, hread]
  have h1 : ¬ ((d0 : Int) = -1) := by omega
  have h2 : isdigit (d0 : Int) = true := by
    simp only [isdigit, Bool.and_eq_true, decide_eq_true_eq]
    omega
  have h3 : ¬ (x.value.num < 0) := not_lt.2 (numeral.value_nonneg x)
  simp only [h1, h2, h3, if_false, Bool.not_true, Bool.false_eq_true]

/-- One turn of the loop on a number and a unit letter: the loop goes on
behind the letter, with a sum that is not negative when the sum was not. -/
theorem utils.seconds_loop_numeral_group (fuel : Nat) (x : numeral) (u : Nat)
    (rest : List Nat) (s : dbl) (hwf : x.wf = true) (hfits : x.fits = true)
    (hu : is_unit_byte u = true) :
    ∃ s1 : dbl, (0 ≤ s.num → 0 ≤ s1.num) ∧
      utils.seconds_loop (fuel + 1) ⟨x.text ++ u :: rest, false⟩ s =
        utils.seconds_loop fuel ⟨rest, false⟩ s1 := by
  have hstep := utils.seconds_loop_numeral fuel x (u :: rest) s hwf hfits
    (by
      intro b t hbt
      simp only [List.cons.injEq] at hbt
      rw [← hbt.1]
      exact numeral.ends_at_unit x u hu)
  have hpeek1 : (⟨u :: rest, false⟩ : istringstream).peek = (u : Int) := rfl
  have hget : (⟨u :: rest, false⟩ : istringstream).get = ⟨rest, false⟩ := rfl
  rw [hpeek1, hget] at hstep
  have hv := numeral.value_nonneg x
  rw [is_unit_byte_iff] at hu
  rcases hu with h | h | h | h <;> subst h
  · refine ⟨s.add x.value, fun hs => dbl.add_nonneg _ _ hs hv, ?_⟩
    rw [hstep]
    simp [to_char, isalpha]
  · refine ⟨s.add (x.value.scale 60),
      fun hs => dbl.add_nonneg _ _ hs (dbl.scale_nonneg _ _ hv), ?_⟩
    rw [hstep]
    simp [to_char, isalpha]
  · refine ⟨s.add (x.value.scale 3600),
      fun hs => dbl.add_nonneg _ _ hs (dbl.scale_nonneg _ _ hv), ?_⟩
    rw [hstep]
    simp [to_char, isalpha]
  · refine ⟨s.add (x.value.scale 86400),
      fun hs => dbl.add_nonneg _ _ hs (dbl.scale_nonneg _ _ hv), ?_⟩
    rw [hstep]
    simp [to_char, isalpha]

theorem numerals_text_cons (g : numeral × Nat) (gs : List (numeral × Nat)) :
    numerals_text (g :: gs) = g.1.text ++ g.2 :: numerals_text gs := by
  simp [numerals_text]

theorem numerals_text_length (gs : List (numeral × Nat)) :
    gs.length ≤ (numerals_text gs).length := by
  induction gs with
  | nil => simp [numerals_text]
  | cons g gs ih =>
    rw [numerals_text_cons]
    simp only [List.length_cons, List.length_append]
    omega

/-- The turns of the loop on a sequence of groups of a number and a unit
letter: the loop goes on behind the groups, with a sum that is not negative
when the sum was not. -/
theorem utils.seconds_loop_numerals (gs : List (numeral × Nat)) :
    ∀ (fuel : Nat) (rest : List Nat) (s : dbl),
      (∀ g ∈ gs, g.1.wf = true ∧ g.1.fits = true ∧ is_unit_byte g.2 = true) →
      ∃ s1 : dbl, (0 ≤ s.num → 0 ≤ s1.num) ∧
        utils.seconds_loop (fuel + gs.length) ⟨numerals_text gs ++ rest, false⟩ s =
          utils.seconds_loop fuel ⟨rest, false⟩ s1 := by
  induction gs with
  | nil =>
    intro fuel rest s _
    exact ⟨s, fun h => h, by simp [numerals_text]⟩
  | cons g gs ih =>
    intro fuel rest s h
    obtain ⟨hwf, hfits, hu⟩ := h g (List.mem_cons_self _ _)
    obtain ⟨s1, hs1, h1⟩ := utils.seconds_loop_numeral_group (fuel + gs.length) g.1 g.2
      (numerals_text gs ++ rest) s hwf hfits hu
    obtain ⟨s2, hs2, h2⟩ := ih fuel rest s1 (fun x hx => h x (List.mem_cons_of_mem _ hx))
    refine ⟨s2, fun hs => hs2 (hs1 hs), ?_⟩
    rw [numerals_text_cons, List.length_cons, ← Nat.add_assoc, List.append_assoc,
      List.cons_append, h1, h2]

theorem to_char_not_unit (c : Nat) (hu : is_unit_byte c = false) (h255 : c < 255) :
    to_char (c : Int) ≠ 115 ∧ to_char (c : Int) ≠ 109 ∧
      to_char (c : Int) ≠ 104 ∧ to_char (c : Int) ≠ 100 := by
  have hnu : ¬ (c = 115 ∨ c = 109 ∨ c = 104 ∨ c = 100) := by
    intro h
    rw [(is_unit_byte_iff c).2 h] at hu
    exact absurd hu (by decide)
  by_cases h : c < 128
  · rw [to_char_of_byte c h]
    omega
  · rw [to_char_of_high_byte c (by omega) h255]
    omega

/-- The turns of the loop on a number followed by a byte that is no unit
letter and that the stream leaves out of the number: the result is -1. -/
theorem utils.seconds_loop_bad_after_numeral (k : Nat) (x : numeral) (c : Nat)
    (tail : List Nat) (s : dbl) (hwf : x.wf = true) (hfits : x.fits = true)
    (hend : x.ends_at c = true) (h255 : c < 255) (hu : is_unit_byte c = false) :
    utils.seconds_loop (k + 2) ⟨x.text ++ c :: tail, false⟩ s = some (-1) := by
  have hc : is_digit_byte c = false := by
    simp only [numeral.ends_at, Bool.and_eq_true, Bool.not_eq_true'] at hend
    exact hend.1.1
  have hstep := utils.seconds_loop_numeral (k + 1) x (c :: tail) s hwf hfits
    (by
      intro b t hbt
      simp only [List.cons.injEq] at hbt
      rw [← hbt.1]
      exact hend)
  have hpeek1 : (⟨c :: tail, false⟩ : istringstream).peek = (c : Int) := rfl
  rw [hpeek1] at hstep
  rw [hstep]
  obtain ⟨h1, h2, h3, h4⟩ := to_char_not_unit c hu h255
  simp only [h1, h2, h3, h4, if_false]
  split
  · rfl
  · exact utils.seconds_loop_bad_byte k c tail _ hc h255

/-- The last turns of the loop on a number at the end of the string: the
result is the whole part of the sum. -/
theorem utils.seconds_loop_last_numeral (k : Nat) (x : numeral) (s : dbl)
    (hwf : x.wf = true) (hfits : x.fits = true) :
    utils.seconds_loop (k + 2) ⟨x.text, false⟩ s = some (s.add x.value).to_int := by
  have hstep := utils.seconds_loop_numeral (k + 1) x [] s hwf hfits
    (fun b t h => absurd h (List.noConfusion))
  rw [List.append_nil] at hstep
  rw [hstep]
  have hpeek1 : (⟨[], false⟩ : istringstream).peek = -1 := rfl
  have ha : isalpha (to_char (-1)) = false := by decide
  rw [hpeek1]
  simp only [ha, Bool.false_eq_true, if_false]
  rw [utils.seconds_loop_end]

/-- C14, as amended: a number is one or more decimal digits, then possibly a
point and digits (which may be missing), then possibly an exponent: `e` or
`E`, possibly a sign, and one or more digits. For a string made of groups of
a number followed by one of the letters `s`, `m`, `h`, `d`, then a number
that may be missing, then a byte that is not a digit and any further bytes,
`seconds_from_time_str` returns -1, when the byte is not 255, no number is
too large for a double and, in case the byte comes right after a number, it
is none of `s`, `m`, `h`, `d` and the stream leaves it out of the number (it
is no point unless the number has a point or an exponent, and no `e` or `E`
unless the number has an exponent). -/
theorem seconds_from_time_str_invalid (gs : List (numeral × Nat)) (last : Option numeral)
    (c : Nat) (tail : List Nat)
    (hgs : ∀ g ∈ gs, g.1.wf = true ∧ g.1.fits = true ∧ is_unit_byte g.2 = true)
    (hlast : ∀ x ∈ last,
      x.wf = true ∧ x.fits = true ∧ x.ends_at c = true ∧ is_unit_byte c = false)
    (hc : is_digit_byte c = false) (h255 : c < 255) :
    utils.seconds_from_time_str (numerals_text gs ++ numeral.text_of last ++ c :: tail) =
      some (-1) := by
  have hlen := numerals_text_length gs
  unfold utils.seconds_from_time_str
  rw [List.append_assoc]
  cases last with
  | none =>
    obtain ⟨s1, _, hstep⟩ := utils.seconds_loop_numerals gs 1 ([] ++ c :: tail) ⟨0, 1⟩ hgs
    rw [List.nil_append, utils.seconds_loop_bad_byte 0 c tail _ hc h255] at hstep
    have hfuel : (numerals_text gs ++ (numeral.text_of none ++ c :: tail)).length + 1 =
        (1 + gs.length) + ((numerals_text gs).length - gs.length + tail.length + 1) := by
      simp only [numeral.text_of, List.length_append, List.length_cons, List.length_nil]
      omega
    rw [hfuel]
    apply utils.seconds_loop_mono_add
    exact hstep
  | some x =>
    obtain ⟨hwf, hfits, hend, hu⟩ := hlast x rfl
    obtain ⟨d0, t, hd, _⟩ := numeral.text_head x hwf
    obtain ⟨s1, _, hstep⟩ := utils.seconds_loop_numerals gs 2 (x.text ++ c :: tail) ⟨0, 1⟩ hgs
    rw [utils.seconds_loop_bad_after_numeral 0 x c tail _ hwf hfits hend h255 hu] at hstep
    have hpos : 1 ≤ x.text.length := by
      rw [hd]
      simp
    have hfuel : (numerals_text gs ++ (numeral.text_of (some x) ++ c :: tail)).length + 1 =
        (2 + gs.length) +
          ((numerals_text gs).length - gs.length + (x.text.length - 1) + tail.length + 1) := by
      simp only [numeral.text_of, List.length_append, List.length_cons]
      omega
    rw [hfuel]
    apply utils.seconds_loop_mono_add
    exact hstep

/-- C14, witness: "4m 2s" is the group "4m", no further number, a space and
"2s", and "5x" is the number "5" and the byte `x`; the result is -1, as it
is for "1.5x", "1.5 ", "1.x", "2h1.5q", "1.5.5" and "1e5e", whose numbers
have a point or an exponent. -/
theorem seconds_from_time_str_invalid_witness :
    utils.seconds_from_time_str (ascii "4m 2s") = some (-1) ∧
    utils.seconds_from_time_str (ascii "5x") = some (-1) ∧
    utils.seconds_from_time_str (ascii "1.5x") = some (-1) ∧
    utils.seconds_from_time_str (ascii "1.5 ") = some (-1) ∧
    utils.seconds_from_time_str (ascii "1.x") = some (-1) ∧
    utils.seconds_from_time_str (ascii "2h1.5q") = some (-1) ∧
    utils.seconds_from_time_str (ascii "1.5.5") = some (-1) ∧
    utils.seconds_from_time_str (ascii "1e5e") = some (-1) :=
  ⟨seconds_from_time_str_invalid [(⟨[52], none, none⟩, 109)] none 32 [50, 115]
      (by decide) (by decide) (by decide) (by decide),
    seconds_from_time_str_invalid [] (some ⟨[53], none, none⟩) 120 []
      (by decide) (by decide) (by decide) (by decide),
    seconds_from_time_str_invalid [] (some ⟨[49], some [53], none⟩) 120 []
      (by decide) (by decide) (by decide) (by decide),
    seconds_from_time_str_invalid [] (some ⟨[49], some [53], none⟩) 32 []
      (by decide) (by decide) (by decide) (by decide),
    seconds_from_time_str_invalid [] (some ⟨[49], some [], none⟩) 120 []
      (by decide) (by decide) (by decide) (by decide),
    seconds_from_time_str_invalid [(⟨[50], none, none⟩, 104)]
      (some ⟨[49], some [53], none⟩) 113 []
      (by decide) (by decide) (by decide) (by decide),
    seconds_from_time_str_invalid [] (some ⟨[49], some [53], none⟩) 46 [53]
      (by decide) (by decide) (by decide) (by decide),
    seconds_from_time_str_invalid [] (some ⟨[49], none, some (101, [], [53])⟩) 101 []
      (by decide) (by decide) (by decide) (by decide)⟩

/-- C14, counterexample: "1.5" is not empty and is no concatenation of groups
of digits with an optional unit letter (it has a point), yet the result is 1
and not -1: the number is read as the double 1.5. -/
theorem seconds_from_time_str_accepts_fraction :
    ascii "1.5" ≠ [] ∧ is_time_text (ascii "1.5") = false ∧
    utils.seconds_from_time_str (ascii "1.5") = some 1 ∧
    utils.seconds_from_time_str (ascii "1.5") ≠ some (-1) := by
  refine ⟨by decide, by decide, by decide, by decide⟩

/-- A string made of groups of a number followed by one of the letters `s`,
`m`, `h`, `d` and a last number that may be missing is not taken for
invalid, whether or not its numbers have a point or an exponent: the result
is not negative, so it is not -1. (The result is the whole part of the sum;
the sum of the model is exact, that of the code is rounded when the numbers
are no integers, and the conversion of a sum of 2^31 or more to `int` is
undefined in C++.) -/
theorem utils.seconds_from_time_str_accepts (gs : List (numeral × Nat))
    (last : Option numeral)
    (hgs : ∀ g ∈ gs, g.1.wf = true ∧ g.1.fits = true ∧ is_unit_byte g.2 = true)
    (hlast : ∀ x ∈ last, x.wf = true ∧ x.fits = true) :
    ∃ v : Int, 0 ≤ v ∧
      utils.seconds_from_time_str (numerals_text gs ++ numeral.text_of last) = some v := by
  have hlen := numerals_text_length gs
  unfold utils.seconds_from_time_str
  cases last with
  | none =>
    obtain ⟨s1, hs1, hstep⟩ := utils.seconds_loop_numerals gs 1 [] ⟨0, 1⟩ hgs
    rw [utils.seconds_loop_end] at hstep
    refine ⟨s1.to_int, dbl.to_int_nonneg s1 (hs1 (le_refl _)), ?_⟩
    have hfuel : (numerals_text gs ++ numeral.text_of none).length + 1 =
        (1 + gs.length) + ((numerals_text gs).length - gs.length) := by
      simp only [numeral.text_of, List.append_nil]
      omega
    rw [hfuel]
    apply utils.seconds_loop_mono_add
    simp only [numeral.text_of]
    exact hstep
  | some x =>
    obtain ⟨hwf, hfits⟩ := hlast x rfl
    obtain ⟨d0, t, hd, _⟩ := numeral.text_head x hwf
    obtain ⟨s1, hs1, hstep⟩ := utils.seconds_loop_numerals gs 2 x.text ⟨0, 1⟩ hgs
    rw [utils.seconds_loop_last_numeral 0 x s1 hwf hfits] at hstep
    refine ⟨(s1.add x.value).to_int,
      dbl.to_int_nonneg _ (dbl.add_nonneg _ _ (hs1 (le_refl _)) (numeral.value_nonneg x)), ?_⟩
    have hpos : 1 ≤ x.text.length := by
      rw [hd]
      simp
    have hfuel : (numerals_text gs ++ numeral.text_of (some x)).length + 1 =
        (2 + gs.length) + ((numerals_text gs).length - gs.length + (x.text.length - 1)) := by
      simp only [numeral.text_of, List.length_append]
      omega
    rw [hfuel]
    apply utils.seconds_loop_mono_add
    exact hstep

/-- Where the loop ends early with the sum so far instead of returning -1: an
exponent without digits makes the stream fail, and the byte 255 is taken
for the end of the input. -/
theorem utils.seconds_from_time_str_ends_early :
    utils.seconds_from_time_str (ascii "1e") = some 0 ∧
    utils.seconds_from_time_str (ascii "2s1ex") = some 2 ∧
    utils.seconds_from_time_str [50, 255, 120] = some 2 := by
  refine ⟨by decide, by decide, by decide⟩

theorem length_dropWhile_le (p : Nat → Bool) (l : List Nat) :
    (l.dropWhile p).length ≤ l.length :=
  (List.dropWhile_sublist p).length_le

/-- The library operator `ss >> n` on a stream that has not failed and has
input left takes at least one byte or makes the stream fail. -/
theorem istringstream.read_double_progress (ss : istringstream) (hne : ss.rest ≠ []) :
    ss.read_double.2.fail = true ∨ ss.read_double.2.rest.length < ss.rest.length := by
  obtain ⟨rest, fail⟩ := ss
  simp only at hne
  obtain ⟨b, t, hbt⟩ := List.exists_cons_of_ne_nil hne
  subst hbt
  have hsign : ∀ r3 : List Nat,
      (match r3 with
        | 43 :: t => t
        | 45 :: t => t
        | _ => r3).length ≤ r3.length := by
    intro r3
    split <;> simp
  have key : ∀ r2 : List Nat, r2.length < (b :: t).length →
      ((match r2.tail with
        | 43 :: t => t
        | 45 :: t => t
        | _ => r2.tail).dropWhile is_digit_byte).length < (b :: t).length := by
    intro r2 h
    have h1 := length_dropWhile_le is_digit_byte (match r2.tail with
        | 43 :: t => t
        | 45 :: t => t
        | _ => r2.tail)
    have h2 := hsign r2.tail
    have h3 : r2.tail.length ≤ r2.length := by simp
    omega
  by_cases hb : is_digit_byte b = true
  · -- a digit is taken
    have hr1 : ((b :: t).dropWhile is_digit_byte).length < (b :: t).length := by
      rw [List.dropWhile_cons_of_pos hb]
      have := length_dropWhile_le is_digit_byte t
      simp only [List.length_cons]
      omega
    have hr2 : (match (b :: t).dropWhile is_digit_byte with
        | 46 :: t => t.dropWhile is_digit_byte
        | _ => (b :: t).dropWhile is_digit_byte).length < (b :: t).length := by
      split
      · rename_i u heq
        have := length_dropWhile_le is_digit_byte u
        rw [heq] at hr1
        simp only [List.length_cons] at hr1 ⊢
        omega
      · exact hr1
    unfold istringstream.read_double
    simp only
    split_ifs
    all_goals first
      | exact Or.inl rfl
      | exact Or.inr (key _ hr2)
      | exact Or.inr hr2
  · -- no digit at the front
    have hb' : is_digit_byte b = false := by simpa using hb
    have hdrop : (b :: t).dropWhile is_digit_byte = b :: t := by
      simp [List.dropWhile_cons, hb']
    have htake : (b :: t).takeWhile is_digit_byte = [] := by
      simp [List.takeWhile_cons, hb']
    unfold istringstream.read_double
    simp only [hdrop, htake, List.nil_append]
    by_cases h46 : b = 46
    · subst h46
      have hr2 : (t.dropWhile is_digit_byte).length < (46 :: t).length := by
        have := length_dropWhile_le is_digit_byte t
        simp only [List.length_cons]
        omega
      simp only
      split_ifs
      all_goals first
        | exact Or.inl rfl
        | exact Or.inr (key _ hr2)
        | exact Or.inr hr2
    · have hm1 : (match b :: t with | 46 :: t => List.takeWhile is_digit_byte t | _ => []) = [] := by
        split
        · rename_i heq
          simp at heq
          exact absurd heq.1 h46
        · rfl
      have hm2 : (match b :: t with | 46 :: t => List.dropWhile is_digit_byte t | _ => b :: t)
          = b :: t := by
        split
        · rename_i heq
          simp at heq
          exact absurd heq.1 h46
        · rfl
      simp only [hm1, hm2]
      simp
theorem istringstream.get_progress (ss : istringstream) :
    (ss.get.fail = ss.fail) ∧ ss.get.rest.length ≤ ss.rest.length := by
  unfold istringstream.get
  split
  · exact ⟨rfl, Nat.le_refl _⟩
  · exact ⟨rfl, by simp⟩

/-- The loop returns when it is given a turn for every byte and one more. -/
theorem utils.seconds_loop_returns (fuel : Nat) :
    ∀ (ss : istringstream) (s : dbl),
      (ss.fail = true ∧ 1 ≤ fuel) ∨ ss.rest.length < fuel →
      (utils.seconds_loop fuel ss s).isSome = true := by
  induction fuel with
  | zero =>
    intro ss s h
    rcases h with h | h
    · omega
    · omega
  | succ fuel ih =>
    intro ss s h
    rw [utils.seconds_loop]
    simp only
    by_cases hc : to_char ss.peek = -1
    · simp [hc]
    · have hgood : ss.fail = false ∧ ss.rest ≠ [] := by
        unfold istringstream.peek at hc
        cases hf : ss.fail
        · refine ⟨rfl, ?_⟩
          intro hr
          rw [hf, hr] at hc
          exact hc (by decide)
        · rw [hf] at hc
          simp only [if_true] at hc
          exact absurd (by decide) hc
      have hlen : ss.rest.length < fuel + 1 := by
        rcases h with h | h
        · rw [hgood.1] at h
          exact absurd h.1 (by decide)
        · exact h
      have hpos : 1 ≤ ss.rest.length := by
        cases hr : ss.rest with
        | nil => exact absurd hr hgood.2
        | cons _ _ => simp
      have hnext : (ss.read_double.2.fail = true ∧ 1 ≤ fuel) ∨
          ss.read_double.2.rest.length < fuel := by
        rcases istringstream.read_double_progress ss hgood.2 with h1 | h1
        · exact Or.inl ⟨h1, by omega⟩
        · exact Or.inr (by omega)
      have hnext2 : (ss.read_double.2.get.fail = true ∧ 1 ≤ fuel) ∨
          ss.read_double.2.get.rest.length < fuel := by
        obtain ⟨hg1, hg2⟩ := istringstream.get_progress ss.read_double.2
        rcases hnext with h1 | h1
        · exact Or.inl ⟨by rw [hg1]; exact h1.1, h1.2⟩
        · exact Or.inr (by omega)
      simp only [hc, if_false]
      split_ifs
      all_goals first
        | rfl
        | exact ih _ _ hnext
        | exact ih _ _ hnext2

/-- The function returns for every string: the turns given to the loop are
never used up. -/
theorem utils.seconds_from_time_str_returns (str : List Nat) :
    (utils.seconds_from_time_str str).isSome = true :=
  utils.seconds_loop_returns (str.length + 1) ⟨str, false⟩ ⟨0, 1⟩ (Or.inr (Nat.lt_succ_self _))

/-! ### Word wrapping -/

/-- C15: `wrap_simple` is called with an empty `out`, the string
"aaaaa bbbbb" and `max_line` 10. Both words fit the line by the test of
`push_word`, which does not count the space it then writes between them, so
`out` holds the one line "aaaaa bbbbb" of 11 characters, one more than
`max_line`. -/
theorem wrap_simple_line_too_long (is_chat_code : Nat → Bool) :
    wordwrap.wrap_simple is_chat_code [] (ascii "aaaaa bbbbb") 10 =
      some [ascii "aaaaa bbbbb"] ∧
    (ascii "aaaaa bbbbb").length = 11 ∧
    ¬ ((ascii "aaaaa bbbbb").length ≤ 10) := by
  refine ⟨rfl, by decide, by decide⟩

end hCraft
